import Mathlib

/-!
Verification development for a slotted-page heap storage engine
(schema/tuple codec in src/db/Tuple.cpp, slotted page HeapPage, heap file
HeapFile over a DbFile I/O layer).  Machine integers are modelled as
Nat/Int with explicit wrap-around where the code relies on it; bytes are
natural numbers (below 256 in every state the C++ code can produce);
exceptions and undefined behaviour are modelled as `Option.none`.
-/

set_option maxHeartbeats 1000000

/-- Modelled from the spec: byte width of an INT field (32-bit signed integer,
spec section 3).  The constant lives in a header that is not among the sources. -/
def INT_SIZE : Nat := 4

/-- Modelled from the spec: byte width of a DOUBLE field (64-bit floating point,
spec section 3). -/
def DOUBLE_SIZE : Nat := 8

/-- Modelled from the spec: byte width of a CHAR field (spec section 8 example
uses CHAR_SIZE = 32). -/
def CHAR_SIZE : Nat := 32

/-- Modelled from the spec: the fixed page size constant (spec section 8 example
uses page size 4096). -/
def DEFAULT_PAGE_SIZE : Nat := 4096

/-- Field type tags, from db::type_t. -/
inductive type_t where
  | INT
  | DOUBLE
  | CHAR
deriving DecidableEq, Repr

/-- Field values, from db::field_t = std::variant<int, double, std::string>.
A C++ int is a mathematical integer (in range for every real value);
a double is represented by its 8-byte object representation, read as a
natural number below 2 ^ 64 (serialization only ever copies those bytes);
a string is represented by the list of its bytes. -/
inductive field_t where
  | intF : Int → field_t
  | doubleF : Nat → field_t
  | charF : List Nat → field_t
deriving DecidableEq, Repr

/-- Tuples, from db::Tuple: an ordered sequence of field values. -/
structure Tuple where
  fields : List field_t
deriving DecidableEq, Repr

/-- Tuple::field_type: the runtime tag of a field (the variant is closed,
so the trailing throw in the source is unreachable). -/
def field_type (f : field_t) : type_t :=
  match f with
  | .intF _ => .INT
  | .doubleF _ => .DOUBLE
  | .charF _ => .CHAR

/-- Schemas, from db::TupleDesc: parallel lists of field types and names. -/
structure TupleDesc where
  types : List type_t
  names : List String
deriving DecidableEq, Repr

/-- The duplicate-name scan of the TupleDesc constructor: the C++ double loop
checks whether names[i] == names[j] for some i < j. -/
def hasDuplicate : List String → Bool
  | [] => false
  | n :: rest => rest.contains n || hasDuplicate rest

/-- TupleDesc::TupleDesc: validates that names are pairwise distinct and that
the type and name lists have equal lengths; `none` models the thrown
std::invalid_argument. -/
def TupleDesc.make (types : List type_t) (names : List String) : Option TupleDesc :=
  if hasDuplicate names then none
  else if types.length = names.length then some ⟨types, names⟩
  else none

/-- Byte width of one field of the given type (the per-type branches of
TupleDesc::length / TupleDesc::offset_of). -/
def typeSize : type_t → Nat
  | .INT => INT_SIZE
  | .DOUBLE => DOUBLE_SIZE
  | .CHAR => CHAR_SIZE

/-- TupleDesc::length: total byte width of one tuple under this schema. -/
def TupleDesc.length (td : TupleDesc) : Nat :=
  (td.types.map typeSize).sum

/-- TupleDesc::size: number of fields. -/
def TupleDesc.size (td : TupleDesc) : Nat :=
  td.types.length

/-- TupleDesc::compatible: the tuple has as many fields as the schema and each
field's runtime tag equals the declared type at its position. -/
def TupleDesc.compatible (td : TupleDesc) (t : Tuple) : Bool :=
  if t.fields.length = td.types.length then
    (td.types.zip t.fields).all (fun p => field_type p.2 == p.1)
  else false

/-- TupleDesc::offset_of.  The source returns 0 for index 0 before any range
check; the out-of-range test is `index > tupleTypes.size() - 1` on size_t, so
for an empty schema it never fires (size() - 1 wraps around to SIZE_MAX) and
the loop body's tupleTypes.at(0) throws instead.  Both exceptions are `none`. -/
def TupleDesc.offset_of (td : TupleDesc) (index : Nat) : Option Nat :=
  if index = 0 then some 0
  else if td.types.length = 0 then none
  else if index > td.types.length - 1 then none
  else some (((td.types.take index).map typeSize).sum)

/-- Cross-schema duplicate scan of TupleDesc::merge: the C++ double loop
throws when some name of td1 equals some name of td2. -/
def namesOverlap (l1 l2 : List String) : Bool :=
  l1.any (fun n => l2.contains n)

/-- TupleDesc::merge: fails on any name shared by the two schemas, otherwise
concatenates types and names (td1 first) and runs the validating constructor. -/
def TupleDesc.merge (td1 td2 : TupleDesc) : Option TupleDesc :=
  if namesOverlap td1.names td2.names then none
  else TupleDesc.make (td1.types ++ td2.types) (td1.names ++ td2.names)

/-- Little-endian base-256 digits: `leBytes k n` is the k low-order bytes of n,
the object representation memcpy copies for fixed-width numeric fields. -/
def leBytes : Nat → Nat → List Nat
  | 0, _ => []
  | k + 1, n => n % 256 :: leBytes k (n / 256)

/-- Value of a little-endian byte list (inverse of `leBytes`). -/
def leNat : List Nat → Nat
  | [] => 0
  | b :: bs => b + 256 * leNat bs

/-- Object representation of a C++ int: 4 little-endian bytes of the value
reduced modulo 2 ^ 32 (two's complement). -/
def encodeInt (x : Int) : List Nat :=
  leBytes 4 (x % (2 ^ 32 : Int)).toNat

/-- Int value read back from 4 bytes (two's complement decode). -/
def decodeInt (bs : List Nat) : Int :=
  if leNat bs < 2 ^ 31 then (leNat bs : Int) else (leNat bs : Int) - 2 ^ 32

/-- Byte at offset i of the storage behind str.c_str(): the string's own bytes,
then the terminating NUL, then whatever memory happens to follow (`junk`).
Reads with i > s.length go past the end of the string's backing storage. -/
def cStrByte (s : List Nat) (junk : Nat → Nat) (i : Nat) : Nat :=
  if i < s.length then s.getD i 0
  else if i = s.length then 0
  else junk i

/-- The CHAR_SIZE bytes memcpy copies from str.c_str() in TupleDesc::serialize:
a fixed-width read from the string's storage, continuing into the adjacent
memory `junk` when the string (plus its NUL) is shorter than CHAR_SIZE. -/
def encodeChar (s : List Nat) (junk : Nat → Nat) : List Nat :=
  (List.range CHAR_SIZE).map (cStrByte s junk)

/-- Field-by-field body of TupleDesc::serialize: iterates over the schema's
types, fetching the tuple field at the running index; a missing field
(fields.at) or a variant mismatch (std::get) throws, modelled as `none`.
Writes are contiguous, so the buffer contents are the concatenation. -/
def serializeFields (junk : Nat → Nat) : List type_t → List field_t → Option (List Nat)
  | [], _ => some []
  | ty :: ts, fields =>
    match ty, fields with
    | .INT, .intF x :: fs =>
      (serializeFields junk ts fs).map (fun rest => encodeInt x ++ rest)
    | .DOUBLE, .doubleF b :: fs =>
      (serializeFields junk ts fs).map (fun rest => leBytes 8 b ++ rest)
    | .CHAR, .charF s :: fs =>
      (serializeFields junk ts fs).map (fun rest => encodeChar s junk ++ rest)
    | _, _ => none

/-- TupleDesc::serialize: writes each field's fixed-width encoding at its
computed offset (consecutively) into the caller's buffer; the result is the
written prefix.  `junk` is the unspecified memory following a source string's
backing storage, read when the string is shorter than CHAR_SIZE - 1. -/
def TupleDesc.serialize (td : TupleDesc) (junk : Nat → Nat) (t : Tuple) : Option (List Nat) :=
  serializeFields junk td.types t.fields

/-- Field-by-field body of TupleDesc::deserialize.  INT and DOUBLE memcpy their
fixed number of bytes.  CHAR memcpys CHAR_SIZE bytes into a fresh char array
and builds a std::string from that pointer, which stops at the first NUL byte;
if the CHAR_SIZE bytes contain no NUL the constructor scans past the end of
the array (undefined behaviour), modelled as `none`.  A buffer shorter than
the schema's width would also be read out of bounds, modelled as `none`. -/
def deserializeFields : List type_t → List Nat → Option (List field_t)
  | [], _ => some []
  | ty :: ts, buf =>
    match ty with
    | .INT =>
      if INT_SIZE ≤ buf.length then
        (deserializeFields ts (buf.drop INT_SIZE)).map
          (fun fs => .intF (decodeInt (buf.take INT_SIZE)) :: fs)
      else none
    | .DOUBLE =>
      if DOUBLE_SIZE ≤ buf.length then
        (deserializeFields ts (buf.drop DOUBLE_SIZE)).map
          (fun fs => .doubleF (leNat (buf.take DOUBLE_SIZE)) :: fs)
      else none
    | .CHAR =>
      if CHAR_SIZE ≤ buf.length then
        if (buf.take CHAR_SIZE).all (fun b => b != 0) then none
        else
          (deserializeFields ts (buf.drop CHAR_SIZE)).map
            (fun fs => .charF ((buf.take CHAR_SIZE).takeWhile (fun b => b != 0)) :: fs)
      else none

/-- TupleDesc::deserialize: reads each field's fixed-width region in schema
order from the start of the buffer and reconstructs a Tuple. -/
def TupleDesc.deserialize (td : TupleDesc) (buf : List Nat) : Option Tuple :=
  (deserializeFields td.types buf).map Tuple.mk

/-- HeapPage capacity, from the HeapPage constructor:
capacity = (page.size() * 8) / (td.length() * 8 + 1), with page.size() = P. -/
def hpCapacity (td : TupleDesc) (P : Nat) : Nat :=
  P * 8 / (td.length * 8 + 1)

/-- Byte offset of the data region inside the page, from the HeapPage
constructor: page.size() - capacity * td.length(). -/
def hpDataOffset (td : TupleDesc) (P : Nat) : Nat :=
  P - hpCapacity td P * td.length

/-- HeapPage::empty: bit (7 - slot % 8) of header byte slot / 8 is clear.
The header pointer is the start of the page buffer. -/
def HeapPage.empty (page : List Nat) (slot : Nat) : Bool :=
  ((page.getD (slot / 8) 0) &&& (1 <<< (7 - slot % 8))) == 0

/-- Fuel-indexed body of the occupied-slot scan loop; `cap - slot` units of
fuel bound the loop's remaining iterations exactly. -/
def scanOccupiedAux (page : List Nat) (cap : Nat) : Nat → Nat → Nat
  | 0, slot => slot
  | fuel + 1, slot =>
    if slot < cap then
      if HeapPage.empty page slot then scanOccupiedAux page cap fuel (slot + 1)
      else slot
    else slot

/-- Scan loop of HeapPage::begin / HeapPage::next: starting at `slot`, the
first slot that is occupied, or `cap` if none remains.  (The source's next
checks empty(slot) before the bound; both guard orders return `slot`
unchanged once slot ≥ cap, so the value agrees.) -/
def scanOccupied (page : List Nat) (cap slot : Nat) : Nat :=
  scanOccupiedAux page cap (cap - slot) slot

/-- Fuel-indexed body of the empty-slot scan loop of HeapPage::insertTuple. -/
def scanEmptyAux (page : List Nat) (cap : Nat) : Nat → Nat → Nat
  | 0, slot => slot
  | fuel + 1, slot =>
    if slot < cap then
      if HeapPage.empty page slot then slot
      else scanEmptyAux page cap fuel (slot + 1)
    else slot

/-- Scan loop of HeapPage::insertTuple: starting at `slot`, the first slot that
is empty, or `cap` if the page is full.  (The source checks !empty(slot)
before the bound; both guard orders return `slot` unchanged once
slot ≥ cap, so the value agrees.) -/
def scanEmpty (page : List Nat) (cap slot : Nat) : Nat :=
  scanEmptyAux page cap (cap - slot) slot

/-- HeapPage::begin: the first occupied slot, or capacity if the page is empty. -/
def HeapPage.begin (td : TupleDesc) (P : Nat) (page : List Nat) : Nat :=
  scanOccupied page (hpCapacity td P) 0

/-- HeapPage::end: the page's end sentinel, its capacity. -/
def HeapPage.endSlot (td : TupleDesc) (P : Nat) : Nat :=
  hpCapacity td P

/-- HeapPage::next: advance the slot by one, then scan to the next occupied
slot (or the capacity sentinel). -/
def HeapPage.next (td : TupleDesc) (P : Nat) (page : List Nat) (slot : Nat) : Nat :=
  scanOccupied page (hpCapacity td P) (slot + 1)

/-- memcpy of `bs` into the page buffer at byte offset `off`. -/
def writeBytes (page : List Nat) (off : Nat) (bs : List Nat) : List Nat :=
  page.take off ++ bs ++ page.drop (off + bs.length)

/-- header[slot / 8] |= (1 << (7 - slot % 8)). -/
def setHeaderBit (page : List Nat) (slot : Nat) : List Nat :=
  page.set (slot / 8) ((page.getD (slot / 8) 0) ||| (1 <<< (7 - slot % 8)))

/-- header[slot / 8] &= ~(1 << (7 - slot % 8)); on a uint8_t the complement of
the promoted mask truncates to 255 ^^^ mask. -/
def clearHeaderBit (page : List Nat) (slot : Nat) : List Nat :=
  page.set (slot / 8) ((page.getD (slot / 8) 0) &&& (255 ^^^ (1 <<< (7 - slot % 8))))

/-- HeapPage::insertTuple: scan for the first empty slot; if the scan reaches
capacity return false with the page unchanged; otherwise serialize the tuple
into that slot's data region and set its header bit.  A serialization
exception (incompatible tuple) propagates as `none`. -/
def HeapPage.insertTuple (td : TupleDesc) (P : Nat) (junk : Nat → Nat)
    (page : List Nat) (t : Tuple) : Option (Bool × List Nat) :=
  if scanEmpty page (hpCapacity td P) 0 = hpCapacity td P then some (false, page)
  else
    match serializeFields junk td.types t.fields with
    | none => none
    | some bs =>
      some (true,
        setHeaderBit
          (writeBytes page
            (hpDataOffset td P + scanEmpty page (hpCapacity td P) 0 * td.length) bs)
          (scanEmpty page (hpCapacity td P) 0))

/-- HeapPage::deleteTuple: throws (`none`) if the slot is already empty,
otherwise clears the slot's header bit only.  The throw happens before any
mutation, so a failed delete leaves the page unchanged. -/
def HeapPage.deleteTuple (page : List Nat) (slot : Nat) : Option (List Nat) :=
  if HeapPage.empty page slot then none
  else some (clearHeaderBit page slot)

/-- HeapPage::getTuple: deserializes whatever bytes are at the slot's data
region, regardless of occupancy. -/
def HeapPage.getTuple (td : TupleDesc) (P : Nat) (page : List Nat) (slot : Nat) : Option Tuple :=
  td.deserialize ((page.drop (hpDataOffset td P + slot * td.length)).take td.length)

/-- A freshly constructed Page (std::array value-initialized to zero bytes). -/
def zeroPage (P : Nat) : List Nat :=
  List.replicate P 0

/-- DbFile::DbFile page-count initialization: numPages is the backing file's
size (from fstat) divided by the page size, and is set to 1 when that
quotient is 0, i.e. for a newly created (empty) file. -/
def dbInitNumPages (fileSize P : Nat) : Nat :=
  if fileSize / P = 0 then 1 else fileSize / P

/-- Modelled from the spec: DbFile::readPage ("load page N into a buffer").
The body in the sources is a TODO stub; per spec section 6 it fills the
fixed-size zero-initialized buffer with page `id` of the backing store, and a
never-persisted index reads as zero bytes. -/
def readStore (P : Nat) (disk : List (List Nat)) (id : Nat) : List Nat :=
  disk.getD id (zeroPage P)

/-- Modelled from the spec: DbFile::writePage ("persist buffer as page N").
The body in the sources is a TODO stub; per spec section 6 it writes the
buffer at page index `id`, growing the store (zero-filled holes) if `id` had
not previously been persisted. -/
def writeStore (P : Nat) (disk : List (List Nat)) (id : Nat) (page : List Nat) :
    List (List Nat) :=
  if id < disk.length then disk.set id page
  else disk ++ List.replicate (id - disk.length) (zeroPage P) ++ [page]

/-- State of a HeapFile: the tracked page count and the backing store. -/
structure HeapFile where
  numPages : Nat
  disk : List (List Nat)
deriving DecidableEq, Repr

/-- HeapFile::insertTuple: load the last page and try to insert; on page-full,
insert into a fresh zeroed page (the returned flag is ignored by the source),
increment the page count, and persist the page that received the tuple at the
(new) last index. -/
def HeapFile.insertTuple (td : TupleDesc) (P : Nat) (junk : Nat → Nat)
    (f : HeapFile) (t : Tuple) : Option HeapFile :=
  let page := readStore P f.disk (f.numPages - 1)
  match HeapPage.insertTuple td P junk page t with
  | none => none
  | some (true, page') =>
    some ⟨f.numPages, writeStore P f.disk (f.numPages - 1) page'⟩
  | some (false, _) =>
    match HeapPage.insertTuple td P junk (zeroPage P) t with
    | none => none
    | some (_, page') =>
      some ⟨f.numPages + 1, writeStore P f.disk (f.numPages + 1 - 1) page'⟩

/-- HeapFile::deleteTuple: load the cursor's page, delete at the cursor's slot
(propagating the invalid-delete failure), and persist the page. -/
def HeapFile.deleteTuple (td : TupleDesc) (P : Nat) (f : HeapFile)
    (cursor : Nat × Nat) : Option HeapFile :=
  match HeapPage.deleteTuple (readStore P f.disk cursor.1) cursor.2 with
  | none => none
  | some page' => some ⟨f.numPages, writeStore P f.disk cursor.1 page'⟩

/-- HeapFile::end: page index numPages - 1, slot index the capacity sentinel
(capacity is schema-derived, identical for every page). -/
def HeapFile.endCursor (td : TupleDesc) (P : Nat) (numPages : Nat) : Nat × Nat :=
  (numPages - 1, hpCapacity td P)

/-- Loop of HeapFile::begin: scan pages from index `p` upward for the first
page whose first occupied slot is not the sentinel; if none, return end(). -/
def hfBeginLoopAux (td : TupleDesc) (P : Nat) (disk : List (List Nat))
    (numPages : Nat) : Nat → Nat → Nat × Nat
  | 0, _ => HeapFile.endCursor td P numPages
  | fuel + 1, p =>
    if p < numPages then
      if HeapPage.begin td P (readStore P disk p) ≠ hpCapacity td P then
        (p, HeapPage.begin td P (readStore P disk p))
      else hfBeginLoopAux td P disk numPages fuel (p + 1)
    else HeapFile.endCursor td P numPages

def hfBeginLoop (td : TupleDesc) (P : Nat) (disk : List (List Nat))
    (numPages : Nat) (p : Nat) : Nat × Nat :=
  hfBeginLoopAux td P disk numPages (numPages - p) p

/-- HeapFile::begin: first populated (page, slot) cursor of the file. -/
def HeapFile.begin (td : TupleDesc) (P : Nat) (disk : List (List Nat))
    (numPages : Nat) : Nat × Nat :=
  hfBeginLoop td P disk numPages 0

/-- Loop of HeapFile::next: advance within the current page; on reaching that
page's end sentinel with pages remaining, move to the next page at slot 0,
stop there if occupied, and otherwise keep scanning (the loop re-runs
HeapPage::next from slot 0 on the new page). -/
def hfNextLoopAux (td : TupleDesc) (P : Nat) (disk : List (List Nat))
    (numPages : Nat) : Nat → Nat → Nat → Nat × Nat
  | 0, p, slot => (p, HeapPage.next td P (readStore P disk p) slot)
  | fuel + 1, p, slot =>
    if HeapPage.next td P (readStore P disk p) slot = hpCapacity td P
        ∧ p < numPages - 1 then
      if HeapPage.empty (readStore P disk (p + 1)) 0 then
        hfNextLoopAux td P disk numPages fuel (p + 1) 0
      else (p + 1, 0)
    else (p, HeapPage.next td P (readStore P disk p) slot)

def hfNextLoop (td : TupleDesc) (P : Nat) (disk : List (List Nat))
    (numPages : Nat) (p slot : Nat) : Nat × Nat :=
  hfNextLoopAux td P disk numPages (numPages - p) p slot

/-- HeapFile::next on a cursor. -/
def HeapFile.next (td : TupleDesc) (P : Nat) (disk : List (List Nat))
    (numPages : Nat) (c : Nat × Nat) : Nat × Nat :=
  hfNextLoop td P disk numPages c.1 c.2

/-- Rank of a cursor in the lexicographic (page, slot) order; slot values never
exceed the capacity sentinel, so `cap + 1` radix keeps the order faithful. -/
def curRank (cap : Nat) (c : Nat × Nat) : Nat :=
  c.1 * (cap + 1) + c.2

/-- Cursor sequence obtained by starting at `c` and repeatedly applying
HeapFile::next until the cursor equals end(), recording every cursor visited
(fuel bounds the recursion; the iteration theorem supplies enough). -/
def traceFromFuel (td : TupleDesc) (P : Nat) (disk : List (List Nat))
    (numPages : Nat) : Nat → Nat × Nat → List (Nat × Nat)
  | 0, _ => []
  | fuel + 1, c =>
    if c = HeapFile.endCursor td P numPages then []
    else c :: traceFromFuel td P disk numPages fuel (HeapFile.next td P disk numPages c)

/-- Full iteration of the file: from begin() via next() until end(). -/
def hfTrace (td : TupleDesc) (P : Nat) (disk : List (List Nat))
    (numPages : Nat) : List (Nat × Nat) :=
  traceFromFuel td P disk numPages (numPages * (hpCapacity td P + 1))
    (HeapFile.begin td P disk numPages)

/-- Written from the spec's words (claim C1): the currently-occupied
(page, slot) cursors of the collection, listed in increasing lexicographic
order, each exactly once. -/
def occCursors (td : TupleDesc) (P : Nat) (disk : List (List Nat))
    (numPages : Nat) : List (Nat × Nat) :=
  (List.range numPages).flatMap (fun p =>
    ((List.range (hpCapacity td P)).filter
      (fun s => !HeapPage.empty (readStore P disk p) s)).map (fun s => (p, s)))

/-- Repeated page-level insertion (the page-fill experiment of claim C6):
inserts the tuples in order into one page, collecting each call's flag. -/
def insertSeq (td : TupleDesc) (P : Nat) (junk : Nat → Nat) :
    List Tuple → List Nat → Option (List Bool × List Nat)
  | [], page => some ([], page)
  | t :: ts, page =>
    match HeapPage.insertTuple td P junk page t with
    | none => none
    | some (b, page') =>
      (insertSeq td P junk ts page').map (fun r => (b :: r.1, r.2))

/-- Concrete junk oracle: the memory after a string's storage is all zeros. -/
def junkZero : Nat → Nat := fun _ => 0

/-- Concrete junk oracle: the memory after a string's storage is all sevens. -/
def junkSeven : Nat → Nat := fun _ => 7

/-- Concrete one-INT schema. -/
def tdIntOnly : TupleDesc := ⟨[.INT], ["id"]⟩

/-- Concrete one-CHAR schema. -/
def tdCharOnly : TupleDesc := ⟨[.CHAR], ["name"]⟩

/-- Concrete zero-field schema. -/
def tdNoFields : TupleDesc := ⟨[], []⟩

/-- Concrete tuple whose text is shorter than CHAR_SIZE ("hi"). -/
def tupleHi : Tuple := ⟨[.charF [104, 105]]⟩

/-- Concrete tuple whose text is exactly CHAR_SIZE bytes, none of them NUL. -/
def tupleWide : Tuple := ⟨[.charF (List.replicate CHAR_SIZE 97)]⟩

/-- Concrete 16-byte page for the one-INT schema (capacity 3): slot 1 occupied. -/
def pageA : List Nat := 64 :: List.replicate 15 0

/-- Concrete 16-byte page: fully empty. -/
def pageB : List Nat := List.replicate 16 0

/-- Concrete 16-byte page: slots 0 and 2 occupied. -/
def pageC : List Nat := 160 :: List.replicate 15 0

/-- Concrete 16-byte page: all three slots occupied (bits 7, 6, 5). -/
def pageFull : List Nat := 224 :: List.replicate 15 0

/-- Concrete three-page store: occupancy starts off slot 0, has a fully empty
middle page, and resumes on the last page. -/
def diskABC : List (List Nat) := [pageA, pageB, pageC]

/-- Wellformedness of a field value for the round-trip amendment of claim C2:
the int is in 32-bit range, the double's representation is 64 bits, and the
text is strictly shorter than the fixed width and NUL-free. -/
def fieldOK : field_t → Prop
  | .intF x => -(2 ^ 31) ≤ x ∧ x < 2 ^ 31
  | .doubleF b => b < 2 ^ 64
  | .charF s => s.length < CHAR_SIZE ∧ ∀ b ∈ s, b ≠ 0

instance (f : field_t) : Decidable (fieldOK f) := by
  cases f <;> simp [fieldOK] <;> infer_instance

/-- Concrete three-field schema. -/
def tdMixed : TupleDesc := ⟨[.INT, .DOUBLE, .CHAR], ["a", "b", "c"]⟩

/-- Concrete one-page heap file whose only page is full (one-INT schema,
16-byte pages, capacity 3). -/
def fileFull : HeapFile := ⟨1, [pageFull]⟩

/-!  Theorems.  First, arithmetic facts about the derived capacity. -/

lemma cap_radix_le (td : TupleDesc) (P : Nat) :
    hpCapacity td P * (td.length * 8 + 1) ≤ P * 8 := by
  simpa [hpCapacity] using Nat.div_mul_le_self (P * 8) (td.length * 8 + 1)

lemma cap_mul_le (td : TupleDesc) (P : Nat) : hpCapacity td P * td.length ≤ P := by
  have h := cap_radix_le td P
  have he : hpCapacity td P * (td.length * 8 + 1)
      = 8 * (hpCapacity td P * td.length) + hpCapacity td P := by ring
  omega

lemma cap_bitmap_le (td : TupleDesc) (P : Nat) :
    hpCapacity td P * td.length + (hpCapacity td P + 7) / 8 ≤ P := by
  have h := cap_radix_le td P
  have he : hpCapacity td P * (td.length * 8 + 1)
      = 8 * (hpCapacity td P * td.length) + hpCapacity td P := by ring
  omega

lemma cap_maximal (td : TupleDesc) (P m : Nat)
    (h : m * td.length + (m + 7) / 8 ≤ P) : m ≤ hpCapacity td P := by
  have hm : m * (td.length * 8 + 1) ≤ P * 8 := by
    have he : m * (td.length * 8 + 1) = 8 * (m * td.length) + m := by ring
    omega
  exact (Nat.le_div_iff_mul_le (by omega)).mpr hm

lemma cap_le_8_dataOffset (td : TupleDesc) (P : Nat) :
    hpCapacity td P ≤ 8 * hpDataOffset td P := by
  have h := cap_radix_le td P
  have hm := cap_mul_le td P
  have he : hpCapacity td P * (td.length * 8 + 1)
      = 8 * (hpCapacity td P * td.length) + hpCapacity td P := by ring
  unfold hpDataOffset
  omega

lemma headerByte_lt_dataOffset (td : TupleDesc) (P : Nat) {s : Nat}
    (hs : s < hpCapacity td P) : s / 8 < hpDataOffset td P := by
  have h := cap_le_8_dataOffset td P
  omega

lemma dataOffset_le (td : TupleDesc) (P : Nat) : hpDataOffset td P ≤ P := by
  unfold hpDataOffset
  omega

/-!  Header-bit lemmas. -/

lemma getD_set_self {l : List Nat} {i v d : Nat} (h : i < l.length) :
    (l.set i v).getD i d = v := by
  simp [List.getD_eq_getElem?_getD, List.getElem?_set_self, h]

lemma getD_set_ne {l : List Nat} {i j v d : Nat} (h : i ≠ j) :
    (l.set i v).getD j d = l.getD j d := by
  simp [List.getD_eq_getElem?_getD, List.getElem?_set_ne h]

lemma empty_eq_not_testBit (page : List Nat) (slot : Nat) :
    HeapPage.empty page slot
      = !(page.getD (slot / 8) 0).testBit (7 - slot % 8) := by
  unfold HeapPage.empty
  rw [Nat.shiftLeft_eq, one_mul, Nat.and_two_pow]
  cases h : (page.getD (slot / 8) 0).testBit (7 - slot % 8) <;>
    simp [h, Nat.pow_eq_zero]

lemma bitIndex_ne {s j : Nat} (hne : s ≠ j) (hdiv : s / 8 = j / 8) :
    7 - s % 8 ≠ 7 - j % 8 := by
  have hs := Nat.div_add_mod s 8
  have hj := Nat.div_add_mod j 8
  have h8s : s % 8 < 8 := Nat.mod_lt _ (by norm_num)
  have h8j : j % 8 < 8 := Nat.mod_lt _ (by norm_num)
  omega

lemma empty_setHeaderBit_self (page : List Nat) (slot : Nat)
    (h : slot / 8 < page.length) :
    HeapPage.empty (setHeaderBit page slot) slot = false := by
  rw [empty_eq_not_testBit]
  unfold setHeaderBit
  rw [getD_set_self (by simpa using h), Nat.shiftLeft_eq, one_mul,
    Nat.testBit_or, Nat.testBit_two_pow_self]
  simp

lemma empty_setHeaderBit_ne (page : List Nat) (slot s : Nat) (hne : s ≠ slot) :
    HeapPage.empty (setHeaderBit page slot) s = HeapPage.empty page s := by
  rw [empty_eq_not_testBit, empty_eq_not_testBit]
  unfold setHeaderBit
  by_cases hdiv : slot / 8 = s / 8
  · by_cases hlen : slot / 8 < page.length
    · rw [hdiv] at hlen ⊢
      rw [getD_set_self hlen, Nat.shiftLeft_eq, one_mul, Nat.testBit_or,
        Nat.testBit_two_pow_of_ne (bitIndex_ne (Ne.symm hne) hdiv)]
      simp
    · rw [List.set_eq_of_length_le (by omega)]
  · rw [getD_set_ne hdiv]

lemma testBit_255 {k : Nat} (hk : k < 8) : Nat.testBit 255 k = true := by
  interval_cases k <;> decide

lemma empty_clearHeaderBit_self (page : List Nat) (slot : Nat) :
    HeapPage.empty (clearHeaderBit page slot) slot = true := by
  rw [empty_eq_not_testBit]
  unfold clearHeaderBit
  by_cases hlen : slot / 8 < page.length
  · rw [getD_set_self hlen, Nat.shiftLeft_eq, one_mul, Nat.testBit_and,
      Nat.testBit_xor, Nat.testBit_two_pow_self,
      testBit_255 (by omega : 7 - slot % 8 < 8)]
    simp
  · rw [List.set_eq_of_length_le (by omega)]
    rw [List.getD_eq_default _ _ (by omega)]
    simp

lemma empty_clearHeaderBit_ne (page : List Nat) (slot s : Nat) (hne : s ≠ slot) :
    HeapPage.empty (clearHeaderBit page slot) s = HeapPage.empty page s := by
  rw [empty_eq_not_testBit, empty_eq_not_testBit]
  unfold clearHeaderBit
  by_cases hdiv : slot / 8 = s / 8
  · by_cases hlen : slot / 8 < page.length
    · rw [hdiv] at hlen ⊢
      rw [getD_set_self hlen, Nat.shiftLeft_eq, one_mul, Nat.testBit_and,
        Nat.testBit_xor,
        Nat.testBit_two_pow_of_ne (bitIndex_ne (Ne.symm hne) hdiv),
        testBit_255 (by omega : 7 - s % 8 < 8)]
      simp
    · rw [List.set_eq_of_length_le (by omega)]
  · rw [getD_set_ne hdiv]

/-!  Buffer-write lemmas. -/

lemma writeBytes_getD_of_lt (page : List Nat) (off : Nat) (bs : List Nat)
    {j : Nat} (d : Nat) (hj : j < off) (hoff : off ≤ page.length) :
    (writeBytes page off bs).getD j d = page.getD j d := by
  unfold writeBytes
  have hlen : (page.take off).length = off := by
    simp [List.length_take]
    omega
  rw [List.append_assoc, List.getD_append _ _ _ _ (by omega),
    List.getD_eq_getElem?_getD, List.getD_eq_getElem?_getD,
    List.getElem?_take, if_pos (by omega)]

lemma writeBytes_length (page : List Nat) (off : Nat) (bs : List Nat)
    (h : off + bs.length ≤ page.length) :
    (writeBytes page off bs).length = page.length := by
  unfold writeBytes
  simp [List.length_take, List.length_drop]
  omega

lemma writeBytes_length_ge (page : List Nat) (off : Nat) (bs : List Nat)
    (h : off ≤ page.length) :
    off ≤ (writeBytes page off bs).length := by
  unfold writeBytes
  simp [List.length_take, List.length_drop]
  omega

lemma setHeaderBit_length (page : List Nat) (slot : Nat) :
    (setHeaderBit page slot).length = page.length := by
  simp [setHeaderBit]

lemma getD_replicate {P i d : Nat} : (List.replicate P 0).getD i d = if i < P then 0 else d := by
  by_cases h : i < P
  · rw [List.getD_eq_getElem?_getD]
    simp [List.getElem?_replicate, h]
  · rw [List.getD_eq_default _ _ (by simpa using by omega)]
    simp [h]

lemma empty_zeroPage (P slot : Nat) : HeapPage.empty (zeroPage P) slot = true := by
  rw [empty_eq_not_testBit]
  unfold zeroPage
  rw [getD_replicate]
  split <;> simp

/-!  Characterization of the two scan loops. -/

lemma scanOccupied_eq (page : List Nat) (cap slot : Nat) :
    scanOccupied page cap slot
      = if slot < cap then
          (if HeapPage.empty page slot then scanOccupied page cap (slot + 1)
           else slot)
        else slot := by
  by_cases h : slot < cap
  · have h1 : cap - slot = (cap - (slot + 1)) + 1 := by omega
    unfold scanOccupied
    rw [h1]
    rfl
  · have h1 : cap - slot = 0 := by omega
    unfold scanOccupied
    rw [h1, if_neg h]
    rfl

lemma scanEmpty_eq (page : List Nat) (cap slot : Nat) :
    scanEmpty page cap slot
      = if slot < cap then
          (if HeapPage.empty page slot then slot
           else scanEmpty page cap (slot + 1))
        else slot := by
  by_cases h : slot < cap
  · have h1 : cap - slot = (cap - (slot + 1)) + 1 := by omega
    unfold scanEmpty
    rw [h1]
    rfl
  · have h1 : cap - slot = 0 := by omega
    unfold scanEmpty
    rw [h1, if_neg h]
    rfl


lemma scanOccupied_spec (page : List Nat) (cap : Nat) :
    ∀ k s0, cap - s0 = k → s0 ≤ cap →
      s0 ≤ scanOccupied page cap s0 ∧ scanOccupied page cap s0 ≤ cap ∧
      (∀ s, s0 ≤ s → s < scanOccupied page cap s0 → HeapPage.empty page s = true) ∧
      (scanOccupied page cap s0 < cap →
        HeapPage.empty page (scanOccupied page cap s0) = false) := by
  intro k
  induction k with
  | zero =>
    intro s0 hk hle
    have hs : s0 = cap := by omega
    subst hs
    have hval : scanOccupied page s0 s0 = s0 := by
      rw [scanOccupied_eq]
      simp
    rw [hval]
    exact ⟨le_refl _, le_refl _, fun s h1 h2 => absurd h2 (by omega),
      fun h => absurd h (by omega)⟩
  | succ k ih =>
    intro s0 hk hle
    have hlt : s0 < cap := by omega
    rw [scanOccupied_eq, if_pos hlt]
    by_cases hemp : HeapPage.empty page s0
    · rw [if_pos hemp]
      obtain ⟨h1, h2, h3, h4⟩ := ih (s0 + 1) (by omega) (by omega)
      refine ⟨by omega, h2, ?_, h4⟩
      intro s hs1 hs2
      rcases Nat.eq_or_lt_of_le hs1 with h | h
      · exact h ▸ hemp
      · exact h3 s (by omega) hs2
    · rw [if_neg hemp]
      exact ⟨le_refl _, by omega, fun s h1 h2 => absurd h2 (by omega),
        fun _ => by simpa using hemp⟩

lemma scanEmpty_spec (page : List Nat) (cap : Nat) :
    ∀ k s0, cap - s0 = k → s0 ≤ cap →
      s0 ≤ scanEmpty page cap s0 ∧ scanEmpty page cap s0 ≤ cap ∧
      (∀ s, s0 ≤ s → s < scanEmpty page cap s0 → HeapPage.empty page s = false) ∧
      (scanEmpty page cap s0 < cap →
        HeapPage.empty page (scanEmpty page cap s0) = true) := by
  intro k
  induction k with
  | zero =>
    intro s0 hk hle
    have hs : s0 = cap := by omega
    subst hs
    have hval : scanEmpty page s0 s0 = s0 := by
      rw [scanEmpty_eq]
      simp
    rw [hval]
    exact ⟨le_refl _, le_refl _, fun s h1 h2 => absurd h2 (by omega),
      fun h => absurd h (by omega)⟩
  | succ k ih =>
    intro s0 hk hle
    have hlt : s0 < cap := by omega
    rw [scanEmpty_eq, if_pos hlt]
    by_cases hemp : HeapPage.empty page s0
    · rw [if_pos hemp]
      exact ⟨le_refl _, by omega, fun s h1 h2 => absurd h2 (by omega), fun _ => hemp⟩
    · rw [if_neg hemp]
      obtain ⟨h1, h2, h3, h4⟩ := ih (s0 + 1) (by omega) (by omega)
      refine ⟨by omega, h2, ?_, h4⟩
      intro s hs1 hs2
      rcases Nat.eq_or_lt_of_le hs1 with h | h
      · exact h ▸ (by simpa using hemp)
      · exact h3 s (by omega) hs2

/-!  Codec lemmas. -/

lemma leBytes_length : ∀ (k n : Nat), (leBytes k n).length = k := by
  intro k
  induction k with
  | zero => intro n; simp [leBytes]
  | succ k ih => intro n; simp [leBytes, ih]

lemma leNat_leBytes : ∀ (k n : Nat), leNat (leBytes k n) = n % 256 ^ k := by
  intro k
  induction k with
  | zero => intro n; simp [leBytes, leNat, Nat.mod_one]
  | succ k ih =>
    intro n
    have h : n % 256 ^ (k + 1) = n % 256 + 256 * (n / 256 % 256 ^ k) := by
      rw [pow_succ, mul_comm (256 ^ k) 256, Nat.mod_mul]
    rw [leBytes, leNat, ih, h]

lemma encodeInt_length (x : Int) : (encodeInt x).length = INT_SIZE := by
  simp [encodeInt, leBytes_length, INT_SIZE]

lemma decodeInt_encodeInt (x : Int) (h1 : -(2 ^ 31) ≤ x) (h2 : x < 2 ^ 31) :
    decodeInt (encodeInt x) = x := by
  unfold decodeInt encodeInt
  rw [leNat_leBytes]
  have hn0 : (0 : Int) ≤ x % (2 ^ 32) := Int.emod_nonneg x (by norm_num)
  have hn1 : x % (2 ^ 32) < 2 ^ 32 := Int.emod_lt_of_pos x (by norm_num)
  have hcast : (((x % (2 ^ 32)).toNat : Int)) = x % (2 ^ 32) := Int.toNat_of_nonneg hn0
  have hsmall : (x % (2 ^ 32)).toNat % 256 ^ 4 = (x % (2 ^ 32)).toNat := by
    apply Nat.mod_eq_of_lt
    omega
  rw [hsmall]
  split <;> omega

lemma encodeChar_length (s : List Nat) (junk : Nat → Nat) :
    (encodeChar s junk).length = CHAR_SIZE := by
  simp [encodeChar]

lemma map_range_getD (l : List Nat) (d : Nat) :
    (List.range l.length).map (fun i => l.getD i d) = l := by
  induction l with
  | nil => simp
  | cons a l ih =>
    have h : (a :: l).length = l.length + 1 := by simp
    rw [h, List.range_succ_eq_map, List.map_cons, List.map_map]
    simp only [List.getD_cons_zero]
    have h2 : ((fun i => (a :: l).getD i d) ∘ (· + 1)) = fun i => l.getD i d := by
      funext i
      simp [List.getD_cons_succ]
    rw [h2, ih]

lemma encodeChar_split (s : List Nat) (junk : Nat → Nat) (h : s.length < CHAR_SIZE) :
    encodeChar s junk
      = s ++ 0 :: (List.range (CHAR_SIZE - s.length - 1)).map
          (fun i => junk (s.length + 1 + i)) := by
  unfold encodeChar
  have hsplit : CHAR_SIZE = s.length + 1 + (CHAR_SIZE - s.length - 1) := by omega
  have h1 : List.range (s.length + 1 + (CHAR_SIZE - s.length - 1))
      = List.range s.length ++ [s.length]
        ++ (List.range (CHAR_SIZE - s.length - 1)).map (fun i => s.length + 1 + i) := by
    rw [List.range_add (s.length + 1) (CHAR_SIZE - s.length - 1),
      List.range_add s.length 1]
    simp [List.range_succ]
  conv_lhs => rw [hsplit]
  rw [h1, List.map_append, List.map_append, List.append_assoc]
  have hfst : (List.range s.length).map (cStrByte s junk) = s := by
    have hc : ∀ i ∈ List.range s.length, cStrByte s junk i = s.getD i 0 := by
      intro i hi
      rw [List.mem_range] at hi
      simp [cStrByte, hi]
    rw [List.map_congr_left hc, map_range_getD]
  have hmid : List.map (cStrByte s junk) [s.length] = [0] := by
    simp [cStrByte]
  have hlast : ((List.range (CHAR_SIZE - s.length - 1)).map
        (fun i => s.length + 1 + i)).map (cStrByte s junk)
      = (List.range (CHAR_SIZE - s.length - 1)).map (fun i => junk (s.length + 1 + i)) := by
    rw [List.map_map]
    apply List.map_congr_left
    intro i _
    simp only [Function.comp]
    unfold cStrByte
    rw [if_neg (by omega), if_neg (by omega)]
  rw [hfst, hmid, hlast]
  rfl

lemma takeWhile_append_zero (s t : List Nat)
    (h : ∀ b ∈ s, b ≠ 0) :
    (s ++ 0 :: t).takeWhile (fun b => b != 0) = s := by
  induction s with
  | nil => simp
  | cons a s ih =>
    have ha : (a != 0) = true := bne_iff_ne.mpr (h a (by simp))
    simp only [List.cons_append, List.takeWhile_cons, ha, if_true]
    rw [ih (fun b hb => h b (by simp [hb]))]

lemma all_append_zero_false (s t : List Nat) :
    ((s ++ 0 :: t).all (fun b => b != 0)) = false := by
  simp [List.all_append]

lemma roundTripFields (junk : Nat → Nat) :
    ∀ (tys : List type_t) (fs : List field_t) (rest : List Nat),
      fs.length = tys.length →
      ((tys.zip fs).all (fun p => field_type p.2 == p.1)) = true →
      (∀ f ∈ fs, fieldOK f) →
      ∃ bs, serializeFields junk tys fs = some bs ∧
        deserializeFields tys (bs ++ rest) = some fs := by
  intro tys
  induction tys with
  | nil =>
    intro fs rest hlen _ _
    have : fs = [] := List.length_eq_zero.mp (by simpa using hlen)
    subst this
    exact ⟨[], rfl, rfl⟩
  | cons ty ts ih =>
    intro fs rest hlen hzip hok
    match fs with
    | [] => simp at hlen
    | f :: fs' =>
      have hlen' : fs'.length = ts.length := by simpa using hlen
      rw [List.zip_cons_cons, List.all_cons] at hzip
      have hhead : (field_type f == ty) = true := by
        cases h : (field_type f == ty) <;> simp [h] at hzip ⊢
      have htail : ((ts.zip fs').all (fun p => field_type p.2 == p.1)) = true := by
        cases h : ((ts.zip fs').all (fun p => field_type p.2 == p.1)) <;>
          simp [h] at hzip ⊢
      have hokf : fieldOK f := hok f (by simp)
      have hok' : ∀ g ∈ fs', fieldOK g := fun g hg => hok g (by simp [hg])
      obtain ⟨bs', hser', hdes'⟩ := ih fs' rest hlen' htail hok'
      cases f with
      | intF x =>
        have hty : ty = .INT := by
          cases ty <;> simp [field_type] at hhead <;> rfl
        subst hty
        refine ⟨encodeInt x ++ bs', ?_, ?_⟩
        · simp [serializeFields, hser']
        · have hlen4 : (encodeInt x).length = INT_SIZE := encodeInt_length x
          rw [deserializeFields]
          simp only [List.append_assoc]
          rw [if_pos (by rw [List.length_append, hlen4]; omega)]
          rw [List.take_left' hlen4, List.drop_left' hlen4, hdes']
          obtain ⟨hx1, hx2⟩ := hokf
          rw [decodeInt_encodeInt x hx1 hx2]
          rfl
      | doubleF b =>
        have hty : ty = .DOUBLE := by
          cases ty <;> simp [field_type] at hhead <;> rfl
        subst hty
        refine ⟨leBytes 8 b ++ bs', ?_, ?_⟩
        · simp [serializeFields, hser']
        · have hlen8 : (leBytes 8 b).length = DOUBLE_SIZE := leBytes_length 8 b
          rw [deserializeFields]
          simp only [List.append_assoc]
          rw [if_pos (by rw [List.length_append, hlen8]; omega)]
          rw [List.take_left' hlen8, List.drop_left' hlen8, hdes']
          rw [leNat_leBytes]
          have hb64 : b < 2 ^ 64 := hokf
          have hb : b % 256 ^ 8 = b := Nat.mod_eq_of_lt (by
            have h28 : (256 : Nat) ^ 8 = 2 ^ 64 := by norm_num
            omega)
          rw [hb]
          rfl
      | charF s =>
        have hty : ty = .CHAR := by
          cases ty <;> simp [field_type] at hhead <;> rfl
        subst hty
        obtain ⟨hs1, hs2⟩ := hokf
        refine ⟨encodeChar s junk ++ bs', ?_, ?_⟩
        · simp [serializeFields, hser']
        · have hlenC : (encodeChar s junk).length = CHAR_SIZE := encodeChar_length s junk
          rw [deserializeFields]
          simp only [List.append_assoc]
          rw [if_pos (by rw [List.length_append, hlenC]; omega)]
          rw [List.take_left' hlenC, List.drop_left' hlenC, hdes']
          rw [encodeChar_split s junk hs1]
          rw [all_append_zero_false, takeWhile_append_zero _ _ hs2]
          simp

lemma compatible_parts {td : TupleDesc} {t : Tuple}
    (h : TupleDesc.compatible td t = true) :
    t.fields.length = td.types.length ∧
      ((td.types.zip t.fields).all (fun p => field_type p.2 == p.1)) = true := by
  unfold TupleDesc.compatible at h
  by_cases hl : t.fields.length = td.types.length
  · rw [if_pos hl] at h
    exact ⟨hl, h⟩
  · rw [if_neg hl] at h
    exact absurd h (by simp)

lemma serializeFields_isSome (junk : Nat → Nat) :
    ∀ (tys : List type_t) (fs : List field_t),
      fs.length = tys.length →
      ((tys.zip fs).all (fun p => field_type p.2 == p.1)) = true →
      ∃ bs, serializeFields junk tys fs = some bs := by
  intro tys
  induction tys with
  | nil =>
    intro fs hlen _
    have : fs = [] := List.length_eq_zero.mp (by simpa using hlen)
    subst this
    exact ⟨[], rfl⟩
  | cons ty ts ih =>
    intro fs hlen hzip
    match fs with
    | [] => simp at hlen
    | f :: fs' =>
      have hlen' : fs'.length = ts.length := by simpa using hlen
      rw [List.zip_cons_cons, List.all_cons] at hzip
      have hhead : (field_type f == ty) = true := by
        cases h : (field_type f == ty) <;> simp [h] at hzip ⊢
      have htail : ((ts.zip fs').all (fun p => field_type p.2 == p.1)) = true := by
        cases h : ((ts.zip fs').all (fun p => field_type p.2 == p.1)) <;>
          simp [h] at hzip ⊢
      obtain ⟨bs', hser'⟩ := ih fs' hlen' htail
      cases f with
      | intF x =>
        have hty : ty = .INT := by
          cases ty <;> simp [field_type] at hhead <;> rfl
        subst hty
        exact ⟨encodeInt x ++ bs', by simp [serializeFields, hser']⟩
      | doubleF b =>
        have hty : ty = .DOUBLE := by
          cases ty <;> simp [field_type] at hhead <;> rfl
        subst hty
        exact ⟨leBytes 8 b ++ bs', by simp [serializeFields, hser']⟩
      | charF s =>
        have hty : ty = .CHAR := by
          cases ty <;> simp [field_type] at hhead <;> rfl
        subst hty
        exact ⟨encodeChar s junk ++ bs', by simp [serializeFields, hser']⟩

lemma serializeFields_length (junk : Nat → Nat) :
    ∀ (tys : List type_t) (fs : List field_t) (bs : List Nat),
      serializeFields junk tys fs = some bs →
      bs.length = (tys.map typeSize).sum := by
  intro tys
  induction tys with
  | nil =>
    intro fs bs h
    cases fs with
    | nil =>
      simp [serializeFields] at h
      subst h
      simp
    | cons f fs' =>
      simp [serializeFields] at h
      subst h
      simp
  | cons ty ts ih =>
    intro fs bs h
    cases ty with
    | INT =>
      match fs with
      | [] => simp [serializeFields] at h
      | .intF x :: fs' =>
        simp only [serializeFields, Option.map_eq_some'] at h
        obtain ⟨bs', hbs', rfl⟩ := h
        simp [List.length_append, encodeInt_length, ih _ _ hbs', typeSize]
      | .doubleF b :: fs' => simp [serializeFields] at h
      | .charF s :: fs' => simp [serializeFields] at h
    | DOUBLE =>
      match fs with
      | [] => simp [serializeFields] at h
      | .doubleF b :: fs' =>
        simp only [serializeFields, Option.map_eq_some'] at h
        obtain ⟨bs', hbs', rfl⟩ := h
        simp [List.length_append, leBytes_length, ih _ _ hbs', typeSize, DOUBLE_SIZE]
      | .intF x :: fs' => simp [serializeFields] at h
      | .charF s :: fs' => simp [serializeFields] at h
    | CHAR =>
      match fs with
      | [] => simp [serializeFields] at h
      | .charF s :: fs' =>
        simp only [serializeFields, Option.map_eq_some'] at h
        obtain ⟨bs', hbs', rfl⟩ := h
        simp [List.length_append, encodeChar_length, ih _ _ hbs', typeSize]
      | .intF x :: fs' => simp [serializeFields] at h
      | .doubleF b :: fs' => simp [serializeFields] at h

/-- Claim C2 (amended): serialize followed by deserialize reproduces the tuple
for every schema-compatible tuple whose INT fields are 32-bit values, whose
DOUBLE fields carry a 64-bit representation, and whose text fields are
strictly shorter than the fixed width and contain no NUL byte — independently
of the memory `junk` following each string's storage and of any bytes `rest`
following the written region of the buffer.  As stated the claim is false:
text of exactly the fixed width (and text longer than it) does not survive
the round trip (see the counterexample). -/
theorem serialize_deserialize_roundTrip (td : TupleDesc) (t : Tuple)
    (junk : Nat → Nat) (rest : List Nat)
    (hc : td.compatible t = true) (hok : ∀ f ∈ t.fields, fieldOK f) :
    ∃ bs, td.serialize junk t = some bs ∧ td.deserialize (bs ++ rest) = some t := by
  obtain ⟨hlen, hzip⟩ := compatible_parts hc
  obtain ⟨bs, h1, h2⟩ := roundTripFields junk td.types t.fields rest hlen hzip hok
  refine ⟨bs, h1, ?_⟩
  unfold TupleDesc.deserialize
  rw [h2]
  rfl

/-- Witness for the round-trip theorem at a concrete schema and tuple. -/
theorem serialize_deserialize_roundTrip_witness :
    tdMixed.compatible ⟨[.intF (-5), .doubleF 12345678901, .charF [104, 105]]⟩ = true ∧
    (∀ f ∈ (Tuple.mk [.intF (-5), .doubleF 12345678901, .charF [104, 105]]).fields, fieldOK f) ∧
    ∃ bs, tdMixed.serialize junkSeven ⟨[.intF (-5), .doubleF 12345678901, .charF [104, 105]]⟩ = some bs ∧
      tdMixed.deserialize (bs ++ [9, 9]) = some ⟨[.intF (-5), .doubleF 12345678901, .charF [104, 105]]⟩ :=
  ⟨by decide, by decide,
    serialize_deserialize_roundTrip tdMixed ⟨[.intF (-5), .doubleF 12345678901, .charF [104, 105]]⟩
      junkSeven [9, 9] (by decide) (by decide)⟩

/-- Counterexample to claim C2 as stated: a tuple compatible with the schema
whose text field is exactly CHAR_SIZE bytes (none of them NUL) serializes,
but deserializing the written buffer does not return the tuple — the
std::string constructor finds no NUL inside the copied region (undefined
behaviour, modelled as `none`). -/
theorem roundTrip_fixedWidth_cex :
    tdCharOnly.compatible tupleWide = true ∧
    (tdCharOnly.serialize junkZero tupleWide).bind
      (fun bs => tdCharOnly.deserialize bs) = none := by
  exact ⟨by decide, by decide⟩

/-- Claim C3: evaluating TupleDesc::serialize on the 2-byte text "hi" under
two different contents of the memory that follows the string's backing
storage yields two different buffers — the code memcpy's CHAR_SIZE bytes
from str.c_str() and therefore reads past the end of the string's storage
instead of padding deterministically. -/
theorem serialize_reads_past_string_storage :
    tdCharOnly.serialize junkZero tupleHi ≠ tdCharOnly.serialize junkSeven tupleHi := by
  decide

/-- Parts of a successfully deserialized field list: as many fields as types,
with matching runtime tags. -/
lemma deserializeFields_parts :
    ∀ (tys : List type_t) (buf : List Nat) (fs : List field_t),
      deserializeFields tys buf = some fs →
      fs.length = tys.length ∧
        ((tys.zip fs).all (fun p => field_type p.2 == p.1)) = true := by
  intro tys
  induction tys with
  | nil =>
    intro buf fs h
    simp [deserializeFields] at h
    subst h
    simp
  | cons ty ts ih =>
    intro buf fs h
    cases ty with
    | INT =>
      rw [deserializeFields] at h
      by_cases hb : INT_SIZE ≤ buf.length
      · rw [if_pos hb] at h
        simp only [Option.map_eq_some'] at h
        obtain ⟨fs', hfs', rfl⟩ := h
        obtain ⟨ihl, ihz⟩ := ih _ _ hfs'
        exact ⟨by simp [ihl], by rw [List.zip_cons_cons, List.all_cons, ihz]; simp [field_type]⟩
      · rw [if_neg hb] at h
        exact absurd h (by simp)
    | DOUBLE =>
      rw [deserializeFields] at h
      by_cases hb : DOUBLE_SIZE ≤ buf.length
      · rw [if_pos hb] at h
        simp only [Option.map_eq_some'] at h
        obtain ⟨fs', hfs', rfl⟩ := h
        obtain ⟨ihl, ihz⟩ := ih _ _ hfs'
        exact ⟨by simp [ihl], by rw [List.zip_cons_cons, List.all_cons, ihz]; simp [field_type]⟩
      · rw [if_neg hb] at h
        exact absurd h (by simp)
    | CHAR =>
      rw [deserializeFields] at h
      by_cases hb : CHAR_SIZE ≤ buf.length
      · rw [if_pos hb] at h
        by_cases ha : ((buf.take CHAR_SIZE).all (fun b => b != 0)) = true
        · rw [if_pos ha] at h
          exact absurd h (by simp)
        · rw [if_neg ha] at h
          simp only [Option.map_eq_some'] at h
          obtain ⟨fs', hfs', rfl⟩ := h
          obtain ⟨ihl, ihz⟩ := ih _ _ hfs'
          exact ⟨by simp [ihl], by rw [List.zip_cons_cons, List.all_cons, ihz]; simp [field_type]⟩
      · rw [if_neg hb] at h
        exact absurd h (by simp)

/-- Claim C10: whenever TupleDesc::deserialize produces a tuple, that tuple is
compatible with the schema: equal field count and matching runtime type at
every position. -/
theorem deserialize_always_compatible (td : TupleDesc) (buf : List Nat) (t : Tuple)
    (h : td.deserialize buf = some t) : td.compatible t = true := by
  unfold TupleDesc.deserialize at h
  cases hd : deserializeFields td.types buf with
  | none => rw [hd] at h; exact absurd h (by simp)
  | some fs =>
    rw [hd] at h
    simp only [Option.map_some', Option.some_inj] at h
    obtain ⟨h1, h2⟩ := deserializeFields_parts td.types buf fs hd
    subst h
    unfold TupleDesc.compatible
    rw [if_pos (by simpa using h1)]
    simpa using h2

/-- Witness for claim C10 at a concrete schema and buffer. -/
theorem deserialize_always_compatible_witness :
    tdIntOnly.deserialize [1, 0, 0, 0] = some ⟨[.intF 1]⟩ ∧
    tdIntOnly.compatible ⟨[.intF 1]⟩ = true :=
  ⟨by decide, deserialize_always_compatible tdIntOnly [1, 0, 0, 0] ⟨[.intF 1]⟩ (by decide)⟩

/-- Claim C9 (amended): offset_of returns the sum of the byte widths of the
fields before the index whenever the index is in range, and fails on every
out-of-range index except index 0 on a zero-field schema, where the source's
early "index == 0" return yields 0 instead of failing. -/
theorem offset_of_spec (td : TupleDesc) (i : Nat) :
    (i < td.types.length →
      td.offset_of i = some (((td.types.take i).map typeSize).sum)) ∧
    (td.types.length ≤ i → i ≠ 0 → td.offset_of i = none) ∧
    (td.types.length = 0 → td.offset_of 0 = some 0) := by
  unfold TupleDesc.offset_of
  refine ⟨?_, ?_, ?_⟩
  · intro hi
    by_cases h0 : i = 0
    · subst h0
      rw [if_pos rfl]
      simp
    · rw [if_neg h0, if_neg (by omega), if_neg (by omega)]
  · intro hge h0
    rw [if_neg h0]
    by_cases hz : td.types.length = 0
    · rw [if_pos hz]
    · rw [if_neg hz, if_pos (by omega)]
  · intro _
    rw [if_pos rfl]

/-- Witness for the offset_of theorem at a concrete schema and index. -/
theorem offset_of_spec_witness :
    (2 < tdMixed.types.length) ∧
    tdMixed.offset_of 2 = some (((tdMixed.types.take 2).map typeSize).sum) :=
  ⟨by decide, (offset_of_spec tdMixed 2).1 (by decide)⟩

/-- Counterexample to claim C9 as stated: on the zero-field schema, index 0 is
out of range, yet offset_of succeeds and returns 0. -/
theorem offset_of_empty_zero_cex : tdNoFields.offset_of 0 = some 0 := by
  decide

lemma hasDuplicate_eq_false {l : List String} : hasDuplicate l = false ↔ l.Nodup := by
  induction l with
  | nil => simp [hasDuplicate]
  | cons n rest ih =>
    rw [hasDuplicate, Bool.or_eq_false_iff, List.nodup_cons, ← ih]
    constructor
    · rintro ⟨h1, h2⟩
      refine ⟨?_, h2⟩
      intro hmem
      rw [← List.elem_iff] at hmem
      simp [List.contains] at h1
      exact absurd hmem (by simp [h1])
    · rintro ⟨h1, h2⟩
      refine ⟨?_, h2⟩
      cases hc : rest.contains n
      · rfl
      · exact absurd (List.elem_iff.mp hc) h1

lemma namesOverlap_iff {l1 l2 : List String} :
    namesOverlap l1 l2 = true ↔ ∃ n ∈ l1, n ∈ l2 := by
  unfold namesOverlap
  rw [List.any_eq_true]
  constructor
  · rintro ⟨n, hn, hc⟩
    exact ⟨n, hn, List.elem_iff.mp hc⟩
  · rintro ⟨n, hn, hc⟩
    exact ⟨n, hn, List.elem_iff.mpr hc⟩

/-- Claim C8: merging two valid schemas with disjoint field names yields the
schema whose types and names are those of the first followed by those of the
second; merging schemas sharing any field name fails, regardless of the
types involved. -/
theorem merge_spec (td1 td2 : TupleDesc)
    (h1n : td1.names.Nodup) (h2n : td2.names.Nodup)
    (h1l : td1.types.length = td1.names.length)
    (h2l : td2.types.length = td2.names.length) :
    ((∀ n ∈ td1.names, n ∉ td2.names) →
      td1.merge td2 = some ⟨td1.types ++ td2.types, td1.names ++ td2.names⟩) ∧
    ((∃ n ∈ td1.names, n ∈ td2.names) → td1.merge td2 = none) := by
  constructor
  · intro hdisj
    unfold TupleDesc.merge
    rw [if_neg (by
      intro hov
      obtain ⟨n, hn1, hn2⟩ := namesOverlap_iff.mp hov
      exact hdisj n hn1 hn2)]
    unfold TupleDesc.make
    rw [if_neg (by
      rw [Bool.not_eq_true, hasDuplicate_eq_false, List.nodup_append]
      exact ⟨h1n, h2n, fun a ha hb => hdisj a ha hb⟩)]
    rw [if_pos (by simp [h1l, h2l])]
  · intro hov
    unfold TupleDesc.merge
    rw [if_pos (namesOverlap_iff.mpr hov)]

/-- Witness for the merge theorem at two concrete schemas, one per branch. -/
theorem merge_spec_witness :
    tdIntOnly.names.Nodup ∧ tdMixed.names.Nodup ∧
    tdIntOnly.merge tdMixed
      = some ⟨tdIntOnly.types ++ tdMixed.types, tdIntOnly.names ++ tdMixed.names⟩ ∧
    tdIntOnly.merge tdIntOnly = none :=
  ⟨by decide, by decide,
    (merge_spec tdIntOnly tdMixed (by decide) (by decide) (by decide) (by decide)).1
      (by decide),
    (merge_spec tdIntOnly tdIntOnly (by decide) (by decide) (by decide) (by decide)).2
      (by decide)⟩

lemma scanEmpty_le (page : List Nat) (cap : Nat) : scanEmpty page cap 0 ≤ cap :=
  (scanEmpty_spec page cap (cap - 0) 0 rfl (by omega)).2.1

lemma scanOccupied_le (page : List Nat) (cap : Nat) : scanOccupied page cap 0 ≤ cap :=
  (scanOccupied_spec page cap (cap - 0) 0 rfl (by omega)).2.1

lemma insertTuple_success {td : TupleDesc} {P : Nat} {junk : Nat → Nat}
    {page : List Nat} {t : Tuple} {page' : List Nat}
    (h : HeapPage.insertTuple td P junk page t = some (true, page')) :
    scanEmpty page (hpCapacity td P) 0 < hpCapacity td P ∧
    ∃ bs, serializeFields junk td.types t.fields = some bs ∧
      page' = setHeaderBit
        (writeBytes page
          (hpDataOffset td P + scanEmpty page (hpCapacity td P) 0 * td.length) bs)
        (scanEmpty page (hpCapacity td P) 0) := by
  unfold HeapPage.insertTuple at h
  by_cases hfull : scanEmpty page (hpCapacity td P) 0 = hpCapacity td P
  · rw [if_pos hfull] at h
    simp at h
  · rw [if_neg hfull] at h
    cases hs : serializeFields junk td.types t.fields with
    | none =>
      rw [hs] at h
      exact absurd h (by simp)
    | some bs =>
      rw [hs] at h
      have hle := scanEmpty_le page (hpCapacity td P)
      simp only [Option.some_inj, Prod.mk.injEq] at h
      exact ⟨by omega, bs, rfl, h.2.symm⟩

lemma insert_slot_offset_le (td : TupleDesc) (P : Nat) {i : Nat}
    (hi : i ≤ hpCapacity td P) :
    hpDataOffset td P + i * td.length ≤ P := by
  have h1 := cap_mul_le td P
  have h2 : i * td.length ≤ hpCapacity td P * td.length :=
    Nat.mul_le_mul_right _ hi
  unfold hpDataOffset
  omega

/-- Claim C5: after a successful page-level insert the receiving slot reads as
occupied; after a successful delete the slot reads as empty; deleting an
already-empty slot fails (the throw happens before any mutation, so the page
is returned unchanged only on success), and hence deleting the same slot
twice in a row fails the second time. -/
theorem page_occupancy_bitmap (td : TupleDesc) (P : Nat) (junk : Nat → Nat)
    (page : List Nat) (t : Tuple) (slot : Nat) (hlen : page.length = P) :
    (∀ page', HeapPage.insertTuple td P junk page t = some (true, page') →
      HeapPage.empty page' (scanEmpty page (hpCapacity td P) 0) = false) ∧
    (∀ page2, HeapPage.deleteTuple page slot = some page2 →
      HeapPage.empty page2 slot = true) ∧
    (HeapPage.empty page slot = true → HeapPage.deleteTuple page slot = none) ∧
    (∀ page2, HeapPage.deleteTuple page slot = some page2 →
      HeapPage.deleteTuple page2 slot = none) := by
  refine ⟨?_, ?_, ?_, ?_⟩
  · intro page' h
    obtain ⟨hslot, bs, hbs, hpage'⟩ := insertTuple_success h
    subst hpage'
    apply empty_setHeaderBit_self
    have hho := headerByte_lt_dataOffset td P hslot
    have hoff : hpDataOffset td P + scanEmpty page (hpCapacity td P) 0 * td.length
        ≤ page.length := by
      rw [hlen]
      exact insert_slot_offset_le td P (by omega)
    have := writeBytes_length_ge page
      (hpDataOffset td P + scanEmpty page (hpCapacity td P) 0 * td.length) bs hoff
    omega
  · intro page2 h
    unfold HeapPage.deleteTuple at h
    by_cases he : HeapPage.empty page slot
    · rw [if_pos he] at h
      exact absurd h (by simp)
    · rw [if_neg he] at h
      simp only [Option.some_inj] at h
      rw [← h]
      exact empty_clearHeaderBit_self page slot
  · intro he
    unfold HeapPage.deleteTuple
    rw [if_pos he]
  · intro page2 h
    unfold HeapPage.deleteTuple at h ⊢
    by_cases he : HeapPage.empty page slot
    · rw [if_pos he] at h
      exact absurd h (by simp)
    · rw [if_neg he] at h
      simp only [Option.some_inj] at h
      rw [← h, if_pos (empty_clearHeaderBit_self page slot)]

/-- Witness for the occupancy theorem: a concrete page of the one-INT schema
(capacity 3) with slot 0 occupied; insert lands in slot 1, a delete of slot 0
succeeds once and fails the second time. -/
theorem page_occupancy_bitmap_witness :
    pageC.length = 16 ∧
    (∀ page', HeapPage.insertTuple tdIntOnly 16 junkZero pageC ⟨[.intF 7]⟩ = some (true, page') →
      HeapPage.empty page' (scanEmpty pageC (hpCapacity tdIntOnly 16) 0) = false) ∧
    (∀ page2, HeapPage.deleteTuple pageC 0 = some page2 →
      HeapPage.empty page2 0 = true) :=
  ⟨by decide,
    (page_occupancy_bitmap tdIntOnly 16 junkZero pageC ⟨[.intF 7]⟩ 0 (by decide)).1,
    (page_occupancy_bitmap tdIntOnly 16 junkZero pageC ⟨[.intF 7]⟩ 0 (by decide)).2.1⟩

lemma pageInsert_full {td : TupleDesc} {P : Nat} (junk : Nat → Nat)
    {page : List Nat} (t : Tuple)
    (hfull : ∀ s, s < hpCapacity td P → HeapPage.empty page s = false) :
    HeapPage.insertTuple td P junk page t = some (false, page) := by
  have hspec := scanEmpty_spec page (hpCapacity td P) (hpCapacity td P - 0) 0 rfl (by omega)
  have hscan : scanEmpty page (hpCapacity td P) 0 = hpCapacity td P := by
    by_contra hne
    have hlt : scanEmpty page (hpCapacity td P) 0 < hpCapacity td P := by omega
    have := hspec.2.2.2 hlt
    rw [hfull _ hlt] at this
    exact absurd this (by simp)
  unfold HeapPage.insertTuple
  rw [if_pos hscan]

lemma scanEmpty_first {page : List Nat} {cap j : Nat} (hj : j < cap)
    (hje : HeapPage.empty page j = true)
    (hbefore : ∀ s, s < j → HeapPage.empty page s = false) :
    scanEmpty page cap 0 = j := by
  have hspec := scanEmpty_spec page cap (cap - 0) 0 rfl (by omega)
  rcases Nat.lt_trichotomy (scanEmpty page cap 0) j with h | h | h
  · have he := hspec.2.2.2 (by omega)
    rw [hbefore _ h] at he
    exact absurd he (by simp)
  · exact h
  · have hf := hspec.2.2.1 j (by omega) h
    rw [hf] at hje
    exact absurd hje (by simp)

lemma pageInsert_step (td : TupleDesc) (P : Nat) (junk : Nat → Nat)
    (page : List Nat) {t : Tuple} (k : Nat)
    (hlen : page.length = P)
    (hfill : ∀ s, s < hpCapacity td P → (HeapPage.empty page s = true ↔ k ≤ s))
    (hk : k < hpCapacity td P)
    (hc : td.compatible t = true) :
    ∃ page', HeapPage.insertTuple td P junk page t = some (true, page') ∧
      page'.length = P ∧
      ∀ s, s < hpCapacity td P → (HeapPage.empty page' s = true ↔ k + 1 ≤ s) := by
  obtain ⟨hl, hz⟩ := compatible_parts hc
  obtain ⟨bs, hbs⟩ := serializeFields_isSome junk td.types t.fields hl hz
  have hbl : bs.length = td.length := serializeFields_length junk td.types t.fields bs hbs
  have hscan : scanEmpty page (hpCapacity td P) 0 = k := by
    apply scanEmpty_first hk ((hfill k hk).mpr (le_refl k))
    intro s hs
    have := hfill s (by omega)
    cases he : HeapPage.empty page s
    · rfl
    · exact absurd (this.mp he) (by omega)
  have hoff : hpDataOffset td P + k * td.length + bs.length ≤ page.length := by
    rw [hlen, hbl]
    have h1 := insert_slot_offset_le td P (i := k + 1) (by omega)
    have h2 : (k + 1) * td.length = k * td.length + td.length := by ring
    omega
  refine ⟨setHeaderBit (writeBytes page (hpDataOffset td P + k * td.length) bs) k,
    ?_, ?_, ?_⟩
  · unfold HeapPage.insertTuple
    rw [hscan, if_neg (by omega), hbs]
  · rw [setHeaderBit_length, writeBytes_length _ _ _ hoff, hlen]
  · intro s hs
    have hwb : ∀ s', s' < hpCapacity td P →
        HeapPage.empty (writeBytes page (hpDataOffset td P + k * td.length) bs) s'
          = HeapPage.empty page s' := by
      intro s' hs'
      rw [empty_eq_not_testBit, empty_eq_not_testBit,
        writeBytes_getD_of_lt page _ bs 0
          (by have := headerByte_lt_dataOffset td P hs'; omega)
          (by omega)]
    by_cases hsk : s = k
    · subst hsk
      have hself : HeapPage.empty
          (setHeaderBit (writeBytes page (hpDataOffset td P + s * td.length) bs) s) s
            = false := by
        apply empty_setHeaderBit_self
        have h1 := headerByte_lt_dataOffset td P hs
        have h2 := writeBytes_length_ge page (hpDataOffset td P + s * td.length) bs
          (by omega)
        omega
      rw [hself]
      constructor
      · intro hcontr
        exact absurd hcontr (by simp)
      · intro hcontr
        omega
    · rw [empty_setHeaderBit_ne _ _ _ hsk, hwb s hs]
      have := hfill s hs
      constructor
      · intro he
        have := this.mp he
        omega
      · intro he
        exact this.mpr (by omega)

lemma insertSeq_fill (td : TupleDesc) (P : Nat) (junk : Nat → Nat) :
    ∀ (ts : List Tuple) (page : List Nat) (k : Nat),
      page.length = P →
      (∀ s, s < hpCapacity td P → (HeapPage.empty page s = true ↔ k ≤ s)) →
      k + ts.length ≤ hpCapacity td P →
      (∀ t' ∈ ts, td.compatible t' = true) →
      ∃ flags pg, insertSeq td P junk ts page = some (flags, pg) ∧
        (∀ b ∈ flags, b = true) ∧ flags.length = ts.length ∧ pg.length = P ∧
        (∀ s, s < hpCapacity td P →
          (HeapPage.empty pg s = true ↔ k + ts.length ≤ s)) := by
  intro ts
  induction ts with
  | nil =>
    intro page k hlen hfill hle hcomp
    exact ⟨[], page, rfl, by simp, by simp, hlen, by simpa using hfill⟩
  | cons t ts ih =>
    intro page k hlen hfill hle hcomp
    obtain ⟨page', hins, hlen', hfill'⟩ :=
      pageInsert_step td P junk page k hlen hfill (by simp at hle; omega)
        (hcomp t (by simp))
    obtain ⟨flags, pg, hseq, hflags, hflen, hplen, hfillN⟩ :=
      ih page' (k + 1) hlen' hfill' (by simp at hle ⊢; omega)
        (fun t' ht' => hcomp t' (by simp [ht']))
    refine ⟨true :: flags, pg, ?_, ?_, by simp [hflen], hplen, ?_⟩
    · simp [insertSeq, hins, hseq]
    · intro b hb
      rcases List.mem_cons.mp hb with h | h
      · exact h
      · exact hflags b h
    · intro s hs
      have := hfillN s hs
      simpa [Nat.add_assoc, Nat.add_comm 1 ts.length] using this

/-- Claim C6: page-level insert places the tuple at the smallest-index empty
slot and sets its header bit; on a page with no empty slot it returns
page-full failure (not an exception); and on a fresh zeroed page, capacity
many compatible inserts all succeed after which any further insert fails. -/
theorem page_insert_first_fit (td : TupleDesc) (P : Nat) (junk : Nat → Nat)
    (page : List Nat) (t : Tuple) (hlen : page.length = P) :
    ((∀ s, s < hpCapacity td P → HeapPage.empty page s = false) →
      HeapPage.insertTuple td P junk page t = some (false, page)) ∧
    (∀ j, j < hpCapacity td P → HeapPage.empty page j = true →
      (∀ s, s < j → HeapPage.empty page s = false) →
      td.compatible t = true →
      ∃ page', HeapPage.insertTuple td P junk page t = some (true, page') ∧
        scanEmpty page (hpCapacity td P) 0 = j ∧
        HeapPage.empty page' j = false) ∧
    (∀ ts : List Tuple, ts.length = hpCapacity td P →
      (∀ t' ∈ ts, td.compatible t' = true) →
      ∃ flags pg, insertSeq td P junk ts (zeroPage P) = some (flags, pg) ∧
        (∀ b ∈ flags, b = true) ∧ flags.length = hpCapacity td P ∧
        ∀ t2 : Tuple, HeapPage.insertTuple td P junk pg t2 = some (false, pg)) := by
  refine ⟨fun hfull => pageInsert_full junk t hfull, ?_, ?_⟩
  · intro j hj hje hbefore hc
    have hscan : scanEmpty page (hpCapacity td P) 0 = j := scanEmpty_first hj hje hbefore
    obtain ⟨hl, hz⟩ := compatible_parts hc
    obtain ⟨bs, hbs⟩ := serializeFields_isSome junk td.types t.fields hl hz
    refine ⟨setHeaderBit
      (writeBytes page (hpDataOffset td P + j * td.length) bs) j, ?_, hscan, ?_⟩
    · unfold HeapPage.insertTuple
      rw [hscan, if_neg (by omega), hbs]
    · apply empty_setHeaderBit_self
      have h1 := headerByte_lt_dataOffset td P hj
      have h2 := writeBytes_length_ge page (hpDataOffset td P + j * td.length) bs
        (by rw [hlen]; exact insert_slot_offset_le td P (by omega))
      omega
  · intro ts hts hcomp
    obtain ⟨flags, pg, hseq, hflags, hflen, hplen, hfillN⟩ :=
      insertSeq_fill td P junk ts (zeroPage P) 0 (by simp [zeroPage])
        (by intro s hs; rw [empty_zeroPage]; simp) (by omega) hcomp
    refine ⟨flags, pg, hseq, hflags, by omega, ?_⟩
    intro t2
    apply pageInsert_full junk t2
    intro s hs
    have := hfillN s hs
    cases he : HeapPage.empty pg s
    · rfl
    · have := this.mp he
      omega

/-- Witness for the first-fit theorem: the one-INT schema on a 16-byte page
(capacity 3), filling a fresh page with three tuples. -/
theorem page_insert_first_fit_witness :
    pageB.length = 16 ∧ (3 : Nat) = hpCapacity tdIntOnly 16 ∧
    ∃ flags pg,
      insertSeq tdIntOnly 16 junkZero [⟨[.intF 1]⟩, ⟨[.intF 2]⟩, ⟨[.intF 3]⟩] (zeroPage 16)
        = some (flags, pg) ∧
      (∀ b ∈ flags, b = true) ∧ flags.length = hpCapacity tdIntOnly 16 ∧
      ∀ t2 : Tuple, HeapPage.insertTuple tdIntOnly 16 junkZero pg t2 = some (false, pg) :=
  ⟨by decide, by decide,
    (page_insert_first_fit tdIntOnly 16 junkZero pageB ⟨[.intF 9]⟩ (by decide)).2.2
      [⟨[.intF 1]⟩, ⟨[.intF 2]⟩, ⟨[.intF 3]⟩] (by decide) (by decide)⟩

/-- Claim C7: the tracked page count starts at 1 for a newly created (empty)
backing store; an insert whose last page still has room does not grow the
file and persists that page in place; an insert that finds the last page
full inserts into a fresh zeroed page (landing at slot 0, which succeeds
whenever the capacity is at least 1), increments the page count by exactly
one, and persists the receiving page at the new last index. -/
theorem heapfile_growth (td : TupleDesc) (P : Nat) (junk : Nat → Nat)
    (f : HeapFile) (t : Tuple) :
    dbInitNumPages 0 P = 1 ∧
    (∀ page', HeapPage.insertTuple td P junk (readStore P f.disk (f.numPages - 1)) t
        = some (true, page') →
      HeapFile.insertTuple td P junk f t
        = some ⟨f.numPages, writeStore P f.disk (f.numPages - 1) page'⟩) ∧
    ((∀ s, s < hpCapacity td P →
        HeapPage.empty (readStore P f.disk (f.numPages - 1)) s = false) →
      td.compatible t = true → 0 < hpCapacity td P →
      ∃ page', HeapPage.insertTuple td P junk (zeroPage P) t = some (true, page') ∧
        HeapFile.insertTuple td P junk f t
          = some ⟨f.numPages + 1, writeStore P f.disk f.numPages page'⟩ ∧
        scanEmpty (zeroPage P) (hpCapacity td P) 0 = 0 ∧
        HeapPage.empty page' 0 = false) := by
  refine ⟨by unfold dbInitNumPages; simp, ?_, ?_⟩
  · intro page' h
    simp [HeapFile.insertTuple, h]
  · intro hfull hc hcap
    have hlast : HeapPage.insertTuple td P junk (readStore P f.disk (f.numPages - 1)) t
        = some (false, readStore P f.disk (f.numPages - 1)) :=
      pageInsert_full junk t hfull
    obtain ⟨page', hins, hlen', hfill'⟩ :=
      pageInsert_step td P junk (zeroPage P) 0 (by simp [zeroPage])
        (by intro s hs; rw [empty_zeroPage]; simp) hcap hc
    have hscan : scanEmpty (zeroPage P) (hpCapacity td P) 0 = 0 :=
      scanEmpty_first hcap (empty_zeroPage P 0) (fun s hs => absurd hs (by omega))
    have hempty0 : HeapPage.empty page' 0 = false := by
      cases he : HeapPage.empty page' 0
      · rfl
      · exact absurd ((hfill' 0 hcap).mp he) (by omega)
    refine ⟨page', hins, ?_, hscan, hempty0⟩
    simp [HeapFile.insertTuple, hlast, hins]

/-- Witness for the growth theorem: a one-page file (one-INT schema, 16-byte
pages, capacity 3) whose single page is full; the insert grows the count to 2
and the tuple lands on the fresh page at slot 0. -/
theorem heapfile_growth_witness :
    (∀ s, s < hpCapacity tdIntOnly 16 →
      HeapPage.empty (readStore 16 fileFull.disk (fileFull.numPages - 1)) s = false) ∧
    tdIntOnly.compatible ⟨[.intF 5]⟩ = true ∧ 0 < hpCapacity tdIntOnly 16 ∧
    ∃ page', HeapPage.insertTuple tdIntOnly 16 junkZero (zeroPage 16) ⟨[.intF 5]⟩
        = some (true, page') ∧
      HeapFile.insertTuple tdIntOnly 16 junkZero fileFull ⟨[.intF 5]⟩
        = some ⟨fileFull.numPages + 1, writeStore 16 fileFull.disk fileFull.numPages page'⟩ ∧
      scanEmpty (zeroPage 16) (hpCapacity tdIntOnly 16) 0 = 0 ∧
      HeapPage.empty page' 0 = false :=
  ⟨by decide, by decide, by decide,
    (heapfile_growth tdIntOnly 16 junkZero fileFull ⟨[.intF 5]⟩).2.2
      (by decide) (by decide) (by decide)⟩

/-- Claim C4 (amended): the slot capacity is floor(P * 8 / (T * 8 + 1)); the
data region fits (capacity * T ≤ P), the claim's literal inequality
capacity * T + (P - capacity * T) ≤ P holds, the data region begins at byte
offset P - capacity * T, and the capacity is the largest m such that m slots
of T bytes plus one bitmap bit per slot (ceil(m / 8) header bytes) fit in the
page.  The claim's "maximum integer satisfying capacity * T + headerBytes ≤ P
with headerBytes = P - capacity * T" is false as stated, since that
inequality is satisfied by every m with m * T ≤ P (see the counterexample). -/
theorem capacity_spec (td : TupleDesc) (P : Nat) (hT : 0 < td.length) :
    hpCapacity td P = P * 8 / (td.length * 8 + 1) ∧
    hpCapacity td P * td.length ≤ P ∧
    hpCapacity td P * td.length + (P - hpCapacity td P * td.length) ≤ P ∧
    hpCapacity td P * td.length + (hpCapacity td P + 7) / 8 ≤ P ∧
    (∀ m, m * td.length + (m + 7) / 8 ≤ P → m ≤ hpCapacity td P) ∧
    hpDataOffset td P = P - hpCapacity td P * td.length := by
  refine ⟨rfl, cap_mul_le td P, ?_, cap_bitmap_le td P,
    fun m hm => cap_maximal td P m hm, rfl⟩
  have := cap_mul_le td P
  omega

/-- Witness for the capacity theorem at the spec's example page size. -/
theorem capacity_spec_witness :
    0 < tdMixed.length ∧
    (hpCapacity tdMixed 4096 = 4096 * 8 / (tdMixed.length * 8 + 1) ∧
    hpCapacity tdMixed 4096 * tdMixed.length ≤ 4096 ∧
    hpCapacity tdMixed 4096 * tdMixed.length
      + (4096 - hpCapacity tdMixed 4096 * tdMixed.length) ≤ 4096 ∧
    hpCapacity tdMixed 4096 * tdMixed.length + (hpCapacity tdMixed 4096 + 7) / 8 ≤ 4096 ∧
    (∀ m, m * tdMixed.length + (m + 7) / 8 ≤ 4096 → m ≤ hpCapacity tdMixed 4096) ∧
    hpDataOffset tdMixed 4096 = 4096 - hpCapacity tdMixed 4096 * tdMixed.length) :=
  ⟨by decide, capacity_spec tdMixed 4096 (by decide)⟩

/-- Counterexample to claim C4 as stated: for the one-INT schema (T = 4) on a
4096-byte page the derived capacity is 993, yet 994 also satisfies the
claim's inequality 994 * T + (4096 - 994 * T) ≤ 4096, so the derived capacity
is not the maximum integer satisfying it. -/
theorem capacity_not_maximal_cex :
    0 < tdIntOnly.length ∧
    hpCapacity tdIntOnly 4096 < 994 ∧
    994 * tdIntOnly.length + (4096 - 994 * tdIntOnly.length) ≤ 4096 :=
  ⟨by decide, by decide, by decide⟩

/-!  Cursor-rank arithmetic for the iteration proof (claim C1). -/

lemma curRank_def (cap p s : Nat) : curRank cap (p, s) = p * (cap + 1) + s := rfl

lemma curRank_lt_of_page_lt {cap p1 s1 p2 s2 : Nat} (h : p1 < p2) (hs : s1 ≤ cap) :
    curRank cap (p1, s1) < curRank cap (p2, s2) := by
  rw [curRank_def, curRank_def]
  have h1 : (p1 + 1) * (cap + 1) ≤ p2 * (cap + 1) := Nat.mul_le_mul_right _ h
  have h2 : (p1 + 1) * (cap + 1) = p1 * (cap + 1) + (cap + 1) := by ring
  omega

lemma curRank_lt_same_page {cap p s1 s2 : Nat} (h : s1 < s2) :
    curRank cap (p, s1) < curRank cap (p, s2) := by
  rw [curRank_def, curRank_def]
  omega

lemma curRank_page_det (cap q1 q2 p : Nat) (hq2 : q2 ≤ cap)
    (hlow : p * (cap + 1) ≤ curRank cap (q1, q2))
    (hhigh : curRank cap (q1, q2) < (p + 1) * (cap + 1)) : q1 = p := by
  rw [curRank_def] at hlow hhigh
  by_contra hne
  rcases Nat.lt_or_ge q1 p with h | h
  · have h1 : (q1 + 1) * (cap + 1) ≤ p * (cap + 1) := Nat.mul_le_mul_right _ h
    have h2 : (q1 + 1) * (cap + 1) = q1 * (cap + 1) + (cap + 1) := by ring
    omega
  · have hgt : p + 1 ≤ q1 := by omega
    have h1 : (p + 1) * (cap + 1) ≤ q1 * (cap + 1) := Nat.mul_le_mul_right _ hgt
    omega

lemma curRank_slot_det (cap q1 q2 p s : Nat) (h : q1 = p)
    (heq : curRank cap (q1, q2) = curRank cap (p, s)) : q2 = s := by
  subst h
  rw [curRank_def, curRank_def] at heq
  omega

/-!  The occupied-cursor list: membership, sortedness, length. -/

lemma occCursors_mem {td : TupleDesc} {P : Nat} {disk : List (List Nat)} {N : Nat}
    {c : Nat × Nat} :
    c ∈ occCursors td P disk N ↔
      c.1 < N ∧ c.2 < hpCapacity td P ∧
        HeapPage.empty (readStore P disk c.1) c.2 = false := by
  obtain ⟨c1, c2⟩ := c
  unfold occCursors
  simp only [List.mem_flatMap, List.mem_map, List.mem_filter, List.mem_range,
    Prod.mk.injEq]
  constructor
  · rintro ⟨p, hp, s, ⟨⟨hs, he⟩, rfl, rfl⟩⟩
    exact ⟨hp, hs, by simpa using he⟩
  · rintro ⟨h1, h2, h3⟩
    exact ⟨c1, h1, c2, ⟨⟨h2, by simpa using h3⟩, rfl, rfl⟩⟩

lemma occCursors_pairwise (td : TupleDesc) (P : Nat) (disk : List (List Nat)) :
    ∀ N : Nat, (occCursors td P disk N).Pairwise
      (fun a b => curRank (hpCapacity td P) a < curRank (hpCapacity td P) b) := by
  intro N
  induction N with
  | zero => simp [occCursors]
  | succ n ih =>
    unfold occCursors at ih ⊢
    rw [List.range_succ, List.flatMap_append, List.pairwise_append]
    refine ⟨ih, ?_, ?_⟩
    · simp only [List.flatMap_cons, List.flatMap_nil, List.append_nil]
      refine List.Pairwise.map _ ?_ ((List.pairwise_lt_range _).filter _)
      intro s1 s2 h
      exact curRank_lt_same_page h
    · intro a ha b hb
      have haM : a ∈ occCursors td P disk n := by
        unfold occCursors
        exact ha
      have ha' := occCursors_mem.mp haM
      simp only [List.flatMap_cons, List.flatMap_nil, List.append_nil,
        List.mem_map, List.mem_filter, List.mem_range] at hb
      obtain ⟨s, ⟨hs, _⟩, rfl⟩ := hb
      exact curRank_lt_of_page_lt ha'.1 (by omega)

lemma occCursors_length_le (td : TupleDesc) (P : Nat) (disk : List (List Nat)) :
    ∀ N : Nat, (occCursors td P disk N).length ≤ N * (hpCapacity td P + 1) := by
  intro N
  induction N with
  | zero => simp [occCursors]
  | succ n ih =>
    unfold occCursors at ih ⊢
    rw [List.range_succ, List.flatMap_append]
    rw [List.length_append]
    have hinner : ((List.range (hpCapacity td P)).filter
        (fun s => !HeapPage.empty (readStore P disk n) s)).length
          ≤ hpCapacity td P := by
      calc ((List.range (hpCapacity td P)).filter _).length
          ≤ (List.range (hpCapacity td P)).length := List.length_filter_le _ _
        _ = hpCapacity td P := List.length_range _
    simp only [List.flatMap_cons, List.flatMap_nil, List.append_nil, List.length_map]
    have he : (n + 1) * (hpCapacity td P + 1)
        = n * (hpCapacity td P + 1) + (hpCapacity td P + 1) := by ring
    omega


lemma between_same_page (cap p s u q1 q2 : Nat) (hq2 : q2 ≤ cap) (hu : u ≤ cap)
    (hlow : curRank cap (p, s) < curRank cap (q1, q2))
    (hhigh : curRank cap (q1, q2) < curRank cap (p, u)) :
    q1 = p ∧ s < q2 ∧ q2 < u := by
  have h1 := curRank_def cap p s
  have h2 := curRank_def cap q1 q2
  have h3 := curRank_def cap p u
  have hq1p : q1 = p := curRank_page_det cap q1 q2 p hq2 (by omega)
    (by have he : (p + 1) * (cap + 1) = p * (cap + 1) + (cap + 1) := by ring
        omega)
  subst hq1p
  exact ⟨rfl, by omega, by omega⟩

lemma between_next_page (cap p s t q1 q2 : Nat) (hq2 : q2 ≤ cap) (ht : t ≤ cap)
    (hlow : curRank cap (p, s) < curRank cap (q1, q2))
    (hhigh : curRank cap (q1, q2) < curRank cap (p + 1, t)) :
    (q1 = p ∧ s < q2) ∨ (q1 = p + 1 ∧ q2 < t) := by
  have h1 := curRank_def cap p s
  have h2 := curRank_def cap q1 q2
  have h3 := curRank_def cap (p + 1) t
  rcases Nat.lt_or_ge (curRank cap (q1, q2)) ((p + 1) * (cap + 1)) with h | h
  · left
    have hq1p : q1 = p := curRank_page_det cap q1 q2 p hq2 (by omega) h
    subst hq1p
    exact ⟨rfl, by omega⟩
  · right
    have hq1p : q1 = p + 1 := curRank_page_det cap q1 q2 (p + 1) hq2 h
      (by have he : (p + 1 + 1) * (cap + 1) = (p + 1) * (cap + 1) + (cap + 1) := by
            ring
          omega)
    subst hq1p
    have h2' := curRank_def cap (p + 1) q2
    exact ⟨rfl, by omega⟩

lemma hfNextLoop_eq (td : TupleDesc) (P : Nat) (disk : List (List Nat))
    (N p slot : Nat) :
    hfNextLoop td P disk N p slot
      = if HeapPage.next td P (readStore P disk p) slot = hpCapacity td P
            ∧ p < N - 1 then
          (if HeapPage.empty (readStore P disk (p + 1)) 0 then
            hfNextLoop td P disk N (p + 1) 0
          else (p + 1, 0))
        else (p, HeapPage.next td P (readStore P disk p) slot) := by
  by_cases h : p < N
  · have h1 : N - p = (N - (p + 1)) + 1 := by omega
    unfold hfNextLoop
    rw [h1]
    rfl
  · have h1 : N - p = 0 := by omega
    unfold hfNextLoop
    rw [h1, if_neg (by rintro ⟨_, hB⟩; omega)]
    rfl

lemma hfBeginLoop_eq (td : TupleDesc) (P : Nat) (disk : List (List Nat))
    (N p : Nat) :
    hfBeginLoop td P disk N p
      = if p < N then
          (if HeapPage.begin td P (readStore P disk p) ≠ hpCapacity td P then
            (p, HeapPage.begin td P (readStore P disk p))
          else hfBeginLoop td P disk N (p + 1))
        else HeapFile.endCursor td P N := by
  by_cases h : p < N
  · have h1 : N - p = (N - (p + 1)) + 1 := by omega
    unfold hfBeginLoop
    rw [h1]
    rfl
  · have h1 : N - p = 0 := by omega
    unfold hfBeginLoop
    rw [h1, if_neg h]
    rfl

/-- Characterization of the HeapFile::next loop: from a valid in-page cursor it
strictly advances in rank, skips no occupied cursor, and lands either on an
occupied cursor or on end(). -/
lemma hfNextLoop_char (td : TupleDesc) (P : Nat) (disk : List (List Nat)) (N : Nat) :
    ∀ d p s, N - 1 - p = d → p < N → s < hpCapacity td P →
      (curRank (hpCapacity td P) (p, s)
        < curRank (hpCapacity td P) (hfNextLoop td P disk N p s)) ∧
      (∀ q1 q2, q1 < N → q2 < hpCapacity td P →
        HeapPage.empty (readStore P disk q1) q2 = false →
        curRank (hpCapacity td P) (p, s) < curRank (hpCapacity td P) (q1, q2) →
        curRank (hpCapacity td P) (q1, q2)
          < curRank (hpCapacity td P) (hfNextLoop td P disk N p s) → False) ∧
      (hfNextLoop td P disk N p s = HeapFile.endCursor td P N ∨
        ((hfNextLoop td P disk N p s).1 < N ∧
         (hfNextLoop td P disk N p s).2 < hpCapacity td P ∧
         HeapPage.empty (readStore P disk (hfNextLoop td P disk N p s).1)
           (hfNextLoop td P disk N p s).2 = false)) := by
  intro d
  induction d with
  | zero =>
    intro p s hd hp hs
    have hspec := scanOccupied_spec (readStore P disk p) (hpCapacity td P)
      (hpCapacity td P - (s + 1)) (s + 1) rfl (by omega)
    have hcond : ¬(HeapPage.next td P (readStore P disk p) s = hpCapacity td P
        ∧ p < N - 1) := by
      rintro ⟨_, hcontra⟩
      omega
    rw [hfNextLoop_eq, if_neg hcond]
    unfold HeapPage.next at hcond ⊢
    refine ⟨curRank_lt_same_page (by omega), ?_, ?_⟩
    · intro q1 q2 hq1 hq2 hocc hlow hhigh
      obtain ⟨hq1p, hsq, hqu⟩ := between_same_page (hpCapacity td P) p s
        (scanOccupied (readStore P disk p) (hpCapacity td P) (s + 1)) q1 q2
        (by omega) hspec.2.1 hlow hhigh
      subst hq1p
      have hemp := hspec.2.2.1 q2 (by omega) (by omega)
      rw [hocc] at hemp
      exact absurd hemp (by simp)
    · by_cases hfin : scanOccupied (readStore P disk p) (hpCapacity td P) (s + 1)
          = hpCapacity td P
      · left
        unfold HeapFile.endCursor
        have hpN : p = N - 1 := by omega
        rw [hfin, hpN]
      · right
        exact ⟨hp, by omega, hspec.2.2.2 (by omega)⟩
  | succ d ih =>
    intro p s hd hp hs
    have hspec := scanOccupied_spec (readStore P disk p) (hpCapacity td P)
      (hpCapacity td P - (s + 1)) (s + 1) rfl (by omega)
    by_cases hcond : HeapPage.next td P (readStore P disk p) s = hpCapacity td P
        ∧ p < N - 1
    · have hcap0 : 0 < hpCapacity td P := by omega
      have hscanemp : ∀ u, s + 1 ≤ u → u < hpCapacity td P →
          HeapPage.empty (readStore P disk p) u = true := by
        intro u h1 h2
        apply hspec.2.2.1 u h1
        unfold HeapPage.next at hcond
        omega
      have hranklt : curRank (hpCapacity td P) (p, s)
          < curRank (hpCapacity td P) (p + 1, 0) :=
        curRank_lt_of_page_lt (by omega) (by omega)
      have hbetween : ∀ q1 q2, q2 < hpCapacity td P →
          HeapPage.empty (readStore P disk q1) q2 = false →
          curRank (hpCapacity td P) (p, s) < curRank (hpCapacity td P) (q1, q2) →
          curRank (hpCapacity td P) (q1, q2)
            < curRank (hpCapacity td P) (p + 1, 0) → False := by
        intro q1 q2 hq2 hocc hlow hhigh
        rcases between_next_page (hpCapacity td P) p s 0 q1 q2 (by omega) (by omega)
          hlow hhigh with ⟨hq1p, hsq⟩ | ⟨_, hq0⟩
        · subst hq1p
          have hemp := hscanemp q2 (by omega) hq2
          rw [hocc] at hemp
          exact absurd hemp (by simp)
        · omega
      by_cases hz : HeapPage.empty (readStore P disk (p + 1)) 0
      · have hres : hfNextLoop td P disk N p s = hfNextLoop td P disk N (p + 1) 0 := by
          rw [hfNextLoop_eq, if_pos hcond, if_pos hz]
        obtain ⟨ihA, ihB, ihC⟩ := ih (p + 1) 0 (by omega) (by omega) hcap0
        rw [hres]
        refine ⟨lt_trans hranklt ihA, ?_, ihC⟩
        intro q1 q2 hq1 hq2 hocc hlow hhigh
        rcases Nat.lt_trichotomy (curRank (hpCapacity td P) (q1, q2))
            (curRank (hpCapacity td P) (p + 1, 0)) with hq | hq | hq
        · exact hbetween q1 q2 hq2 hocc hlow hq
        · have hq1p : q1 = p + 1 := by
            have h2 := curRank_def (hpCapacity td P) q1 q2
            have h3 := curRank_def (hpCapacity td P) (p + 1) 0
            exact curRank_page_det (hpCapacity td P) q1 q2 (p + 1) (by omega)
              (by omega)
              (by have he : (p + 1 + 1) * (hpCapacity td P + 1)
                    = (p + 1) * (hpCapacity td P + 1) + (hpCapacity td P + 1) := by
                    ring
                  omega)
          have hq20 : q2 = 0 := curRank_slot_det (hpCapacity td P) q1 q2 (p + 1) 0
            hq1p hq
          subst hq1p
          subst hq20
          rw [hocc] at hz
          exact absurd hz (by simp)
        · exact ihB q1 q2 hq1 hq2 hocc hq hhigh
      · have hres : hfNextLoop td P disk N p s = (p + 1, 0) := by
          rw [hfNextLoop_eq, if_pos hcond, if_neg hz]
        rw [hres]
        refine ⟨hranklt, ?_, ?_⟩
        · intro q1 q2 hq1 hq2 hocc hlow hhigh
          exact hbetween q1 q2 hq2 hocc hlow hhigh
        · right
          exact ⟨by omega, hcap0, by simpa using hz⟩
    · rw [hfNextLoop_eq, if_neg hcond]
      unfold HeapPage.next at hcond ⊢
      refine ⟨curRank_lt_same_page (by omega), ?_, ?_⟩
      · intro q1 q2 hq1 hq2 hocc hlow hhigh
        obtain ⟨hq1p, hsq, hqu⟩ := between_same_page (hpCapacity td P) p s
          (scanOccupied (readStore P disk p) (hpCapacity td P) (s + 1)) q1 q2
          (by omega) hspec.2.1 hlow hhigh
        subst hq1p
        have hemp := hspec.2.2.1 q2 (by omega) (by omega)
        rw [hocc] at hemp
        exact absurd hemp (by simp)
      · by_cases hfin : scanOccupied (readStore P disk p) (hpCapacity td P) (s + 1)
            = hpCapacity td P
        · left
          unfold HeapFile.endCursor
          have hpN : p = N - 1 := by
            rcases not_and_or.mp hcond with h | h
            · exact absurd hfin h
            · omega
          rw [hfin, hpN]
        · right
          exact ⟨hp, by omega, hspec.2.2.2 (by omega)⟩

/-- Characterization of the HeapFile::begin loop from page p: no occupied
cursor on pages ≥ p ranks below the result, and the result is end() or an
occupied cursor on a page ≥ p. -/
lemma hfBeginLoop_char (td : TupleDesc) (P : Nat) (disk : List (List Nat)) (N : Nat) :
    ∀ d p, N - p = d →
      (∀ q1 q2, q1 < N → q2 < hpCapacity td P →
        HeapPage.empty (readStore P disk q1) q2 = false → p ≤ q1 →
        curRank (hpCapacity td P) (hfBeginLoop td P disk N p)
          ≤ curRank (hpCapacity td P) (q1, q2)) ∧
      (hfBeginLoop td P disk N p = HeapFile.endCursor td P N ∨
        ((hfBeginLoop td P disk N p).1 < N ∧
         (hfBeginLoop td P disk N p).2 < hpCapacity td P ∧
         HeapPage.empty (readStore P disk (hfBeginLoop td P disk N p).1)
           (hfBeginLoop td P disk N p).2 = false)) := by
  intro d
  induction d with
  | zero =>
    intro p hd
    have hp : ¬ p < N := by omega
    rw [hfBeginLoop_eq, if_neg hp]
    exact ⟨fun q1 q2 hq1 _ _ hpq => absurd hq1 (by omega), Or.inl rfl⟩
  | succ d ih =>
    intro p hd
    have hp : p < N := by omega
    have hspec := scanOccupied_spec (readStore P disk p) (hpCapacity td P)
      (hpCapacity td P - 0) 0 rfl (by omega)
    rw [hfBeginLoop_eq, if_pos hp]
    unfold HeapPage.begin
    by_cases hz : scanOccupied (readStore P disk p) (hpCapacity td P) 0
        = hpCapacity td P
    · rw [if_neg (by simpa using hz)]
      obtain ⟨ih1, ih2⟩ := ih (p + 1) (by omega)
      refine ⟨?_, ih2⟩
      intro q1 q2 hq1 hq2 hocc hpq
      rcases Nat.eq_or_lt_of_le hpq with h | h
      · subst h
        have hemp := hspec.2.2.1 q2 (by omega) (by omega)
        rw [hocc] at hemp
        exact absurd hemp (by simp)
      · exact ih1 q1 q2 hq1 hq2 hocc (by omega)
    · rw [if_pos (by simpa using hz)]
      have hlt : scanOccupied (readStore P disk p) (hpCapacity td P) 0
          < hpCapacity td P := by
        have := hspec.2.1
        omega
      refine ⟨?_, Or.inr ⟨hp, hlt, hspec.2.2.2 hlt⟩⟩
      intro q1 q2 hq1 hq2 hocc hpq
      rcases Nat.eq_or_lt_of_le hpq with h | h
      · subst h
        have hle : scanOccupied (readStore P disk p) (hpCapacity td P) 0 ≤ q2 := by
          by_contra hcon
          have hemp := hspec.2.2.1 q2 (by omega) (by omega)
          rw [hocc] at hemp
          exact absurd hemp (by simp)
        rw [curRank_def, curRank_def]
        omega
      · exact le_of_lt (curRank_lt_of_page_lt h (by omega))

/-- On a rank-sorted cursor list, the suffix at rank ≥ rank c is c followed by
the suffix at rank ≥ rank c', provided c is in the list, c' ranks above c,
and no list element ranks strictly between them. -/
lemma filter_rank_cons {cap : Nat} {L : List (Nat × Nat)} {c c' : Nat × Nat}
    (hs : L.Pairwise (fun a b => curRank cap a < curRank cap b))
    (hc : c ∈ L)
    (hlt : curRank cap c < curRank cap c')
    (hgap : ∀ q ∈ L, ¬(curRank cap c < curRank cap q ∧ curRank cap q < curRank cap c')) :
    L.filter (fun q => decide (curRank cap c ≤ curRank cap q))
      = c :: L.filter (fun q => decide (curRank cap c' ≤ curRank cap q)) := by
  induction L with
  | nil => exact absurd hc (by simp)
  | cons a L ih =>
    rw [List.pairwise_cons] at hs
    rcases Nat.lt_trichotomy (curRank cap a) (curRank cap c) with h | h | h
    · have hcL : c ∈ L := by
        rcases List.mem_cons.mp hc with hca | hcl
        · subst hca
          omega
        · exact hcl
      rw [List.filter_cons, if_neg (by simp; omega), List.filter_cons,
        if_neg (by simp; omega)]
      exact ih hs.2 hcL (fun q hq => hgap q (by simp [hq]))
    · have hac : a = c := by
        rcases List.mem_cons.mp hc with hca | hcl
        · exact hca.symm
        · exact absurd (hs.1 c hcl) (by omega)
      subst hac
      rw [List.filter_cons, if_pos (by simp), List.filter_cons, if_neg (by simp; omega)]
      congr 1
      have hall : ∀ q ∈ L, curRank cap c' ≤ curRank cap q := by
        intro q hq
        have hgt := hs.1 q hq
        have := hgap q (by simp [hq])
        omega
      have hallc : ∀ q ∈ L, curRank cap a ≤ curRank cap q := by
        intro q hq
        exact le_of_lt (hs.1 q hq)
      rw [List.filter_eq_self.mpr (fun q hq => by simp; exact hallc q hq),
        List.filter_eq_self.mpr (fun q hq => by simp; exact hall q hq)]
    · have : c ∈ L := by
        rcases List.mem_cons.mp hc with hca | hcl
        · subst hca
          omega
        · exact hcl
      exact absurd (hs.1 c this) (by omega)

lemma occ_rank_lt_end (td : TupleDesc) (P : Nat) (N : Nat) (hN : 1 ≤ N)
    {q1 q2 : Nat} (hq1 : q1 < N) (hq2 : q2 < hpCapacity td P) :
    curRank (hpCapacity td P) (q1, q2)
      < curRank (hpCapacity td P) (HeapFile.endCursor td P N) := by
  unfold HeapFile.endCursor
  rcases Nat.lt_or_ge q1 (N - 1) with h | h
  · exact curRank_lt_of_page_lt h (by omega)
  · have hq1e : q1 = N - 1 := by omega
    subst hq1e
    exact curRank_lt_same_page hq2

lemma traceFromFuel_eq (td : TupleDesc) (P : Nat) (disk : List (List Nat))
    (N : Nat) (hN : 1 ≤ N) :
    ∀ fuel c,
      (c = HeapFile.endCursor td P N ∨
        (c.1 < N ∧ c.2 < hpCapacity td P ∧
         HeapPage.empty (readStore P disk c.1) c.2 = false)) →
      ((occCursors td P disk N).filter
        (fun q => decide (curRank (hpCapacity td P) c
          ≤ curRank (hpCapacity td P) q))).length ≤ fuel →
      traceFromFuel td P disk N fuel c
        = (occCursors td P disk N).filter
            (fun q => decide (curRank (hpCapacity td P) c
              ≤ curRank (hpCapacity td P) q)) := by
  intro fuel
  induction fuel with
  | zero =>
    intro c hc hlen
    simp only [traceFromFuel]
    exact (List.length_eq_zero.mp (by omega)).symm
  | succ fuel ih =>
    intro c hc hlen
    rcases hc with hend | hval
    · subst hend
      have hstep : traceFromFuel td P disk N (fuel + 1) (HeapFile.endCursor td P N)
          = [] := by
        rw [traceFromFuel, if_pos rfl]
      rw [hstep]
      symm
      rw [List.filter_eq_nil_iff]
      intro q hq
      obtain ⟨q1, q2⟩ := q
      obtain ⟨hq1, hq2, _⟩ := occCursors_mem.mp hq
      have hq1' : q1 < N := hq1
      have hq2' : q2 < hpCapacity td P := hq2
      have := occ_rank_lt_end td P N hN hq1' hq2'
      simp only [decide_eq_true_eq]
      omega
    · have hcne : c ≠ HeapFile.endCursor td P N := by
        intro heq
        have h2 := hval.2.1
        rw [heq] at h2
        unfold HeapFile.endCursor at h2
        omega
      obtain ⟨hA, hB, hC⟩ := hfNextLoop_char td P disk N (N - 1 - c.1) c.1 c.2 rfl
        hval.1 hval.2.1
      have hgap : ∀ q ∈ occCursors td P disk N,
          ¬(curRank (hpCapacity td P) c < curRank (hpCapacity td P) q ∧
            curRank (hpCapacity td P) q
              < curRank (hpCapacity td P) (hfNextLoop td P disk N c.1 c.2)) := by
        intro q hq ⟨h1, h2⟩
        obtain ⟨hq1, hq2, hocc⟩ := occCursors_mem.mp hq
        exact hB q.1 q.2 hq1 hq2 hocc h1 h2
      have hcons := filter_rank_cons (occCursors_pairwise td P disk N)
        (occCursors_mem.mpr hval) hA hgap
      simp only [traceFromFuel, if_neg hcne]
      have hnext : HeapFile.next td P disk N c = hfNextLoop td P disk N c.1 c.2 := rfl
      rw [hnext, ih (hfNextLoop td P disk N c.1 c.2) hC
        (by rw [hcons] at hlen; simp at hlen; omega), hcons]

/-- Claim C1: iterating a heap file from begin() by repeated next() until the
cursor equals end() visits exactly the currently-occupied (page, slot)
cursors — for any number of pages and any occupancy pattern, including pages
whose first occupied slot is not slot 0 and fully empty intermediate pages —
in strictly increasing (page, slot) order, each exactly once: the visited
sequence equals the canonical increasing list of occupied cursors. -/
theorem heapfile_iteration (td : TupleDesc) (P : Nat) (disk : List (List Nat))
    (N : Nat) (hN : 1 ≤ N) :
    hfTrace td P disk N = occCursors td P disk N ∧
    (hfTrace td P disk N).Pairwise
      (fun a b => curRank (hpCapacity td P) a < curRank (hpCapacity td P) b) ∧
    ∀ c : Nat × Nat, c ∈ hfTrace td P disk N ↔
      (c.1 < N ∧ c.2 < hpCapacity td P ∧
       HeapPage.empty (readStore P disk c.1) c.2 = false) := by
  obtain ⟨hb1, hb2⟩ := hfBeginLoop_char td P disk N (N - 0) 0 rfl
  have hself : (occCursors td P disk N).filter
      (fun q => decide (curRank (hpCapacity td P) (hfBeginLoop td P disk N 0)
        ≤ curRank (hpCapacity td P) q)) = occCursors td P disk N := by
    apply List.filter_eq_self.mpr
    intro q hq
    obtain ⟨hq1, hq2, hocc⟩ := occCursors_mem.mp hq
    simp only [decide_eq_true_eq]
    exact hb1 q.1 q.2 hq1 hq2 hocc (by omega)
  have hmain : hfTrace td P disk N = occCursors td P disk N := by
    unfold hfTrace HeapFile.begin
    rw [traceFromFuel_eq td P disk N hN _ _ hb2 ?hfuel, hself]
    case hfuel =>
      calc ((occCursors td P disk N).filter _).length
          ≤ (occCursors td P disk N).length := List.length_filter_le _ _
        _ ≤ N * (hpCapacity td P + 1) := occCursors_length_le td P disk N
  refine ⟨hmain, ?_, ?_⟩
  · rw [hmain]
    exact occCursors_pairwise td P disk N
  · intro c
    rw [hmain]
    exact occCursors_mem

/-- Witness for the iteration theorem: a three-page store (one-INT schema,
16-byte pages, capacity 3) whose first page's first occupied slot is 1, whose
middle page is fully empty, and whose last page has slots 0 and 2 occupied. -/
theorem heapfile_iteration_witness :
    (1 ≤ 3) ∧ hfTrace tdIntOnly 16 diskABC 3 = occCursors tdIntOnly 16 diskABC 3 ∧
    hfTrace tdIntOnly 16 diskABC 3 = [(0, 1), (2, 0), (2, 2)] :=
  ⟨by decide, (heapfile_iteration tdIntOnly 16 diskABC 3 (by decide)).1, by decide⟩
